import Mathlib

/-!
Verification of the `tagsub` content-based event-routing engine.

The engine (from `src/lib.rs`) offers two strategies:
* `LinearScan`: an ordered list of `(listener, filter)` pairs, rescanned per event;
* `TreeScanner`: a shared key ordering (`pipeline`) plus a trie of `TagTree`
  nodes, walked breadth-first per event.

Listeners are modelled as opaque values of a type `L`: the Rust engine never
inspects listener state, it only invokes `Listener::accept`, so `accept` here
returns the list of listener values invoked, in invocation order.  Rust
`BTreeMap`s are modelled as association lists (the engine only performs keyed
lookup and keyed insertion on them; it iterates over a filter's entries, whose
order the claims do not depend on).  The fallible `subscribe` of `TreeScanner`
(the `todo!` on multi-valued constraints) returns an `Option`.
-/

namespace Tagsub

abbrev Tag : Type := String
abbrev Value : Type := String

/-- Keyed lookup in an association list (models `BTreeMap::get`). -/
def lookupKV {α : Type} (k : String) : List (String × α) → Option α
  | [] => none
  | (k₂, v) :: rest => if k₂ = k then some v else lookupKV k rest

/-- `Event` from the source: a mapping from tag name to a single tag value. -/
structure Event where
  tags : List (Tag × Value)
deriving DecidableEq

def Event.get (e : Event) (k : Tag) : Option Value := lookupKV k e.tags

/-- `Filter` from the source: a mapping from tag name to the set of
acceptable values for that tag. -/
structure Filter where
  tags : List (Tag × List Value)
deriving DecidableEq

def Filter.get (f : Filter) (k : Tag) : Option (List Value) := lookupKV k f.tags

/-- The match predicate from `LinearScan::accept`:
`filter.tags.iter().all(|(tag, values)|
    evt.tags.get(tag).map(|v| values.contains(v)).unwrap_or(false))`. -/
def Filter.matches (f : Filter) (e : Event) : Bool :=
  f.tags.all fun kv =>
    match e.get kv.1 with
    | some v => decide (v ∈ kv.2)
    | none => false

/-- `LinearScan`: an ordered list of `(listener, filter)` pairs. -/
structure LinearScan (L : Type) where
  listeners : List (L × Filter)

def LinearScan.empty (L : Type) : LinearScan L := ⟨[]⟩

/-- `LinearScan::subscribe` pushes the pair at the end of the list. -/
def LinearScan.subscribe {L : Type} (s : LinearScan L) (a : L) (f : Filter) :
    LinearScan L :=
  ⟨s.listeners ++ [(a, f)]⟩

/-- The loop body of `LinearScan::accept`: invoke, in order, every stored
listener whose filter matches. -/
def acceptList {L : Type} (e : Event) : List (L × Filter) → List L
  | [] => []
  | (a, f) :: rest =>
      (if f.matches e then [a] else []) ++ acceptList e rest

/-- `LinearScan::accept`, returning the invocation log. -/
def LinearScan.accept {L : Type} (s : LinearScan L) (e : Event) : List L :=
  acceptList e s.listeners

/-- `TagTree` from the source: listeners terminating at this node, an optional
passthrough child, and value-keyed children. -/
inductive TagTree (L : Type) : Type where
  | mk (interested : List L) (passthrough : Option (TagTree L))
      (children : List (Value × TagTree L)) : TagTree L

/-- `TagTree::new()`. -/
def TagTree.new {L : Type} : TagTree L := .mk [] none []

def TagTree.interested {L : Type} : TagTree L → List L
  | .mk i _ _ => i

def TagTree.passthrough {L : Type} : TagTree L → Option (TagTree L)
  | .mk _ p _ => p

def TagTree.children {L : Type} : TagTree L → List (Value × TagTree L)
  | .mk _ _ c => c

/-- Keyed insertion/replacement in the children map (models
`BTreeMap::entry(v).or_insert_with(..)` followed by in-place mutation:
an existing entry is updated, a missing one is added). -/
def setChild {L : Type} (v : Value) (t : TagTree L) :
    List (Value × TagTree L) → List (Value × TagTree L)
  | [] => [(v, t)]
  | (w, u) :: rest =>
      if w = v then (v, t) :: rest else (w, u) :: setChild v t rest

/-- The walk of `TreeScanner::subscribe` over the first
`filter.tags.len()` pipeline keys.  At a key the filter does not constrain,
follow (creating if absent) the passthrough child; at a key constrained to a
single value, follow (creating if absent) the child for that value; a key
constrained to any other number of values hits the `todo!` (modelled as
`none`).  At the end of the walk, push the listener on `interested`. -/
def insertListener {L : Type} (a : L) (f : Filter) :
    TagTree L → List Tag → Option (TagTree L)
  | t, [] => some (.mk (t.interested ++ [a]) t.passthrough t.children)
  | t, key :: rest =>
    match f.get key with
    | none =>
        match insertListener a f (t.passthrough.getD TagTree.new) rest with
        | some sub => some (.mk t.interested (some sub) t.children)
        | none => none
    | some [v] =>
        match insertListener a f ((lookupKV v t.children).getD TagTree.new) rest with
        | some sub => some (.mk t.interested t.passthrough (setChild v sub t.children))
        | none => none
    | some _ => none

/-- `TreeScanner` from the source. -/
structure TreeScanner (L : Type) where
  pipeline : List Tag
  root : TagTree L

def TreeScanner.empty (L : Type) : TreeScanner L := ⟨[], TagTree.new⟩

/-- The pipeline extension at the start of `TreeScanner::subscribe`: append
the filter's tag names not yet present, in the filter's own order. -/
def extendPipeline (pl : List Tag) (f : Filter) : List Tag :=
  pl ++ (f.tags.map Prod.fst).filter (fun k => decide (k ∉ pl))

/-- `TreeScanner::subscribe`.  `none` models the fatal `todo!` path. -/
def TreeScanner.subscribe {L : Type} (s : TreeScanner L) (a : L) (f : Filter) :
    Option (TreeScanner L) :=
  let pl := extendPipeline s.pipeline f
  match insertListener a f s.root (pl.take f.tags.length) with
  | some root₂ => some ⟨pl, root₂⟩
  | none => none

/-- One node's contribution to the next frontier in `TreeScanner::accept`:
its passthrough child (if any), then the child keyed by the event's value for
the current pipeline key (if the event carries the key and the edge exists). -/
def nextOf {L : Type} (e : Event) (key : Tag) (t : TagTree L) : List (TagTree L) :=
  (match t.passthrough with
   | some p => [p]
   | none => []) ++
  (match e.get key with
   | some v =>
       match lookupKV v t.children with
       | some c => [c]
       | none => []
   | none => [])

/-- The listeners fired for one frontier: each node's `interested`, in
frontier order. -/
def interestedOf {L : Type} : List (TagTree L) → List L
  | [] => []
  | t :: ts => t.interested ++ interestedOf ts

/-- The next frontier built from the whole current frontier. -/
def nextFrontier {L : Type} (e : Event) (key : Tag) : List (TagTree L) → List (TagTree L)
  | [] => []
  | t :: ts => nextOf e key t ++ nextFrontier e key ts

/-- The frontier loop of `TreeScanner::accept`: per pipeline key, fire every
frontier node's `interested`, then advance the frontier; at the end fire the
final frontier's `interested`. -/
def acceptWalk {L : Type} (e : Event) : List (TagTree L) → List Tag → List L
  | ts, [] => interestedOf ts
  | ts, key :: rest => interestedOf ts ++ acceptWalk e (nextFrontier e key ts) rest

/-- `TreeScanner::accept`, returning the invocation log. -/
def TreeScanner.accept {L : Type} (s : TreeScanner L) (e : Event) : List L :=
  acceptWalk e [s.root] s.pipeline

/-- Building a scanner by a sequence of `subscribe` calls (failing when any
call hits the fatal path). -/
def buildFrom {L : Type} (s : TreeScanner L) : List (L × Filter) → Option (TreeScanner L)
  | [] => some s
  | (a, f) :: rest =>
    match s.subscribe a f with
    | some s₂ => buildFrom s₂ rest
    | none => none

def buildTree (L : Type) (subs : List (L × Filter)) : Option (TreeScanner L) :=
  buildFrom (TreeScanner.empty L) subs

def buildLinFrom {L : Type} (s : LinearScan L) : List (L × Filter) → LinearScan L
  | [] => s
  | (a, f) :: rest => buildLinFrom (s.subscribe a f) rest

def buildLinear (L : Type) (subs : List (L × Filter)) : LinearScan L :=
  buildLinFrom (LinearScan.empty L) subs

/-! ### Analysis layer: trie edges and paths

A node of the trie is addressed by the list of edges from the root: at each
depth either the passthrough edge or a value edge. -/

inductive Edge : Type where
  | pass : Edge
  | val (v : Value) : Edge
deriving DecidableEq

/-- The edge the subscribe walk takes at one pipeline key, `none` when the
walk hits the fatal multi-value case. -/
def filterEdge (f : Filter) (key : Tag) : Option Edge :=
  match f.get key with
  | none => some .pass
  | some [v] => some (.val v)
  | some _ => none

/-- The full path the subscribe walk takes over a key list. -/
def pathOf (f : Filter) : List Tag → Option (List Edge)
  | [] => some []
  | k :: ks =>
    match filterEdge f k, pathOf f ks with
    | some ed, some p => some (ed :: p)
    | _, _ => none

/-- Follow one edge of a node. -/
def TagTree.sub {L : Type} (t : TagTree L) : Edge → Option (TagTree L)
  | .pass => t.passthrough
  | .val v => lookupKV v t.children

/-- Follow a path of edges. -/
def lookupPath {L : Type} : TagTree L → List Edge → Option (TagTree L)
  | t, [] => some t
  | t, ed :: p =>
    match t.sub ed with
    | some t₂ => lookupPath t₂ p
    | none => none

/-- The `interested` list of the node at a path ( `[]` when absent). -/
def interestedAt {L : Type} (t : TagTree L) (p : List Edge) : List L :=
  match lookupPath t p with
  | some t₂ => t₂.interested
  | none => []

/-- The pure tree update performed by a successful subscribe walk: create the
nodes along the path as needed and push the listener at its end. -/
def insertAtPath {L : Type} (a : L) : TagTree L → List Edge → TagTree L
  | t, [] => .mk (t.interested ++ [a]) t.passthrough t.children
  | t, .pass :: p =>
      .mk t.interested (some (insertAtPath a (t.passthrough.getD TagTree.new) p)) t.children
  | t, .val v :: p =>
      .mk t.interested t.passthrough
        (setChild v (insertAtPath a ((lookupKV v t.children).getD TagTree.new) p) t.children)

/-- Whether an event lets the accept frontier cross one edge. -/
def edgeCompat (e : Event) (key : Tag) : Edge → Bool
  | .pass => true
  | .val v => decide (e.get key = some v)

/-- Whether an event lets the accept frontier reach the node at a path. -/
def pathCompat (e : Event) : List Tag → List Edge → Bool
  | _, [] => true
  | [], _ :: _ => false
  | key :: keys, ed :: p => edgeCompat e key ed && pathCompat e keys p

/-- All paths (of any length up to the key list's) that an event's frontier
reaches: at each key, stop, continue by passthrough, or continue by the
event's value edge. -/
def compatPaths (e : Event) : List Tag → List (List Edge)
  | [] => [[]]
  | key :: keys =>
    [] :: ((compatPaths e keys).map (Edge.pass :: ·) ++
      (match e.get key with
       | some v => (compatPaths e keys).map (Edge.val v :: ·)
       | none => []))

/-- Depth-first version of the accept walk on a single tree, used to count
invocations (the breadth-first `acceptWalk` delivers the same multiset). -/
def acceptTree {L : Type} (e : Event) : TagTree L → List Tag → List L
  | t, [] => t.interested
  | t, key :: rest =>
      t.interested ++
      (match t.passthrough with
       | some p => acceptTree e p rest
       | none => []) ++
      (match e.get key with
       | some v =>
           match lookupKV v t.children with
           | some c => acceptTree e c rest
           | none => []
       | none => [])

/-- Occurrence count of a listener in a log. -/
def cnt {L : Type} [DecidableEq L] (x : L) : List L → Nat
  | [] => 0
  | y :: ys => (if y = x then 1 else 0) + cnt x ys

/-- Sum of a numeric function over a list. -/
def sumf {α : Type} (g : α → Nat) : List α → Nat
  | [] => 0
  | p :: ps => g p + sumf g ps

/-- The pipeline after a sequence of subscriptions. -/
def pipeAfter {L : Type} : List Tag → List (L × Filter) → List Tag
  | pl, [] => pl
  | pl, (_, f) :: rest => pipeAfter (extendPipeline pl f) rest

/-- How many copies of listener `x` a sequence of subscriptions stores at
path `q`, starting from pipeline `pl`. -/
def pathAdds {L : Type} [DecidableEq L] (x : L) (q : List Edge) :
    List Tag → List (L × Filter) → Nat
  | _, [] => 0
  | pl, (a, f) :: rest =>
      let pl₂ := extendPipeline pl f
      (if x = a ∧ pathOf f (pl₂.take f.tags.length) = some q then 1 else 0) +
        pathAdds x q pl₂ rest

/-- Whether the subscription `(a, f)` made at (extended) pipeline `pl₂` is
delivered event `e`: its subscribe walk succeeds and lands on a node the
event's frontier reaches. -/
def firesAt (e : Event) (pl₂ : List Tag) (f : Filter) : Bool :=
  match pathOf f (pl₂.take f.tags.length) with
  | some p => pathCompat e pl₂ p
  | none => false

/-- Reference count of deliveries of `x` by the tree strategy, computed from
the subscription list alone. -/
def specTreeCnt {L : Type} [DecidableEq L] (x : L) (e : Event) :
    List Tag → List (L × Filter) → Nat
  | _, [] => 0
  | pl, (a, f) :: rest =>
      let pl₂ := extendPipeline pl f
      (if x = a ∧ firesAt e pl₂ f then 1 else 0) + specTreeCnt x e pl₂ rest

/-- Reference count of deliveries of `x` by the linear strategy. -/
def specLinCnt {L : Type} [DecidableEq L] (x : L) (e : Event) :
    List (L × Filter) → Nat
  | [] => 0
  | (a, f) :: rest =>
      (if x = a ∧ f.matches e then 1 else 0) + specLinCnt x e rest

/-! ### Basic lemmas on the helper functions -/

theorem cnt_append {L : Type} [DecidableEq L] (x : L) (l₁ l₂ : List L) :
    cnt x (l₁ ++ l₂) = cnt x l₁ + cnt x l₂ := by
  induction l₁ with
  | nil => simp [cnt]
  | cons y ys ih => simp [cnt, ih, Nat.add_assoc]

theorem cnt_cons {L : Type} [DecidableEq L] (x y : L) (ys : List L) :
    cnt x (y :: ys) = (if y = x then 1 else 0) + cnt x ys := rfl

theorem cnt_eq_zero {L : Type} [DecidableEq L] {x : L} {l : List L} :
    cnt x l = 0 ↔ x ∉ l := by
  induction l with
  | nil => simp [cnt]
  | cons y ys ih =>
    rw [cnt_cons]
    by_cases h : y = x
    · subst h
      rw [if_pos rfl]
      constructor
      · intro h0; exact absurd h0 (by omega)
      · intro h0; exact absurd (List.mem_cons_self y ys) h0
    · rw [if_neg h]
      simp [ih, Ne.symm h]

theorem cnt_pos {L : Type} [DecidableEq L] {x : L} {l : List L} :
    0 < cnt x l ↔ x ∈ l := by
  rw [Nat.pos_iff_ne_zero, ne_eq, cnt_eq_zero]; simp

theorem nodup_of_cnt_le_one {L : Type} [DecidableEq L] {l : List L}
    (h : ∀ x, cnt x l ≤ 1) : l.Nodup := by
  induction l with
  | nil => exact List.nodup_nil
  | cons y ys ih =>
    refine List.nodup_cons.mpr ⟨?_, ih fun x => ?_⟩
    · have h1 := h y
      rw [cnt_cons, if_pos rfl] at h1
      exact cnt_eq_zero.mp (by omega)
    · have h1 := h x
      rw [cnt_cons] at h1
      by_cases hxy : y = x
      · rw [if_pos hxy] at h1; omega
      · rw [if_neg hxy] at h1; omega

theorem cnt_le_one_of_nodup {L : Type} [DecidableEq L] {l : List L}
    (h : l.Nodup) (x : L) : cnt x l ≤ 1 := by
  induction l with
  | nil => simp [cnt]
  | cons y ys ih =>
    rcases List.nodup_cons.mp h with ⟨hy, hys⟩
    by_cases hxy : y = x
    · subst hxy
      have : cnt y ys = 0 := cnt_eq_zero.mpr hy
      simp [cnt, this]
    · simpa [cnt, hxy] using ih hys

theorem sumf_congr {α : Type} {g h : α → Nat} {ps : List α}
    (hp : ∀ p ∈ ps, g p = h p) : sumf g ps = sumf h ps := by
  induction ps with
  | nil => rfl
  | cons p ps ih =>
    simp only [sumf, hp p (by simp)]
    rw [ih fun q hq => hp q (by simp [hq])]

theorem sumf_zero {α : Type} {g : α → Nat} {ps : List α}
    (hp : ∀ p ∈ ps, g p = 0) : sumf g ps = 0 := by
  induction ps with
  | nil => rfl
  | cons p ps ih =>
    simp only [sumf, hp p (by simp), Nat.zero_add]
    exact ih fun q hq => hp q (by simp [hq])

theorem sumf_append {α : Type} (g : α → Nat) (l₁ l₂ : List α) :
    sumf g (l₁ ++ l₂) = sumf g l₁ + sumf g l₂ := by
  induction l₁ with
  | nil => simp [sumf]
  | cons p ps ih => simp [sumf, ih]; omega

theorem sumf_map {α β : Type} (g : β → Nat) (h : α → β) (ps : List α) :
    sumf g (ps.map h) = sumf (fun p => g (h p)) ps := by
  induction ps with
  | nil => rfl
  | cons p ps ih => simp [sumf, ih]

theorem sumf_add {α : Type} (g h : α → Nat) (ps : List α) :
    sumf (fun p => g p + h p) ps = sumf g ps + sumf h ps := by
  induction ps with
  | nil => rfl
  | cons p ps ih => simp [sumf, ih]; omega

theorem sumf_indicator {α : Type} [DecidableEq α] {ps : List α} (hps : ps.Nodup)
    (p₀ : α) (c : Nat) :
    sumf (fun p => if p = p₀ then c else 0) ps = if p₀ ∈ ps then c else 0 := by
  induction ps with
  | nil => simp [sumf]
  | cons p ps ih =>
    rcases List.nodup_cons.mp hps with ⟨hp, hps₂⟩
    by_cases h : p = p₀
    · subst h
      simp [sumf, ih hps₂, hp]
    · have : (p₀ ∈ p :: ps) ↔ p₀ ∈ ps := by
        simp [List.mem_cons]
        intro he; exact absurd he.symm h
      simp [sumf, h, ih hps₂, this]

theorem lookupKV_mem {α : Type} {k : String} {l : List (String × α)} {v : α}
    (h : lookupKV k l = some v) : (k, v) ∈ l := by
  induction l with
  | nil => simp [lookupKV] at h
  | cons kv rest ih =>
    obtain ⟨k₂, w⟩ := kv
    by_cases hk : k₂ = k
    · subst hk
      simp [lookupKV] at h
      subst h; simp
    · simp [lookupKV, hk] at h
      simp [ih h]

theorem mem_lookupKV {α : Type} {k : String} {l : List (String × α)} {v : α}
    (hnd : (l.map Prod.fst).Nodup) (h : (k, v) ∈ l) : lookupKV k l = some v := by
  induction l with
  | nil => simp at h
  | cons kv rest ih =>
    obtain ⟨k₂, w⟩ := kv
    simp only [List.map_cons, List.nodup_cons] at hnd
    rcases List.mem_cons.mp h with h₁ | h₂
    · obtain ⟨hk, hv⟩ := Prod.mk.injEq .. ▸ h₁
      simp_all [lookupKV]
    · have hk : k₂ ≠ k := by
        rintro rfl
        exact hnd.1 (List.mem_map.mpr ⟨(k₂, v), h₂, rfl⟩)
      simp [lookupKV, hk, ih hnd.2 h₂]

theorem lookupKV_setChild_self {L : Type} (v : Value) (t : TagTree L)
    (cs : List (Value × TagTree L)) : lookupKV v (setChild v t cs) = some t := by
  induction cs with
  | nil => simp [setChild, lookupKV]
  | cons wu rest ih =>
    obtain ⟨w, u⟩ := wu
    by_cases h : w = v <;> simp [setChild, h, lookupKV, ih]

theorem lookupKV_setChild_ne {L : Type} {v w : Value} (hne : w ≠ v) (t : TagTree L)
    (cs : List (Value × TagTree L)) :
    lookupKV w (setChild v t cs) = lookupKV w cs := by
  have hvw : v ≠ w := Ne.symm hne
  induction cs with
  | nil => simp [setChild, lookupKV, hvw]
  | cons xu rest ih =>
    obtain ⟨x, u⟩ := xu
    by_cases h : x = v
    · subst h
      simp [setChild, lookupKV, hvw]
    · simp only [setChild, if_neg h, lookupKV]
      by_cases hx : x = w <;> simp [hx, ih]

/-! ### The trie viewed through paths -/

theorem interestedAt_nil {L : Type} (t : TagTree L) :
    interestedAt t [] = t.interested := rfl

theorem interestedAt_cons {L : Type} (t : TagTree L) (ed : Edge) (p : List Edge) :
    interestedAt t (ed :: p) =
      match t.sub ed with
      | some t₂ => interestedAt t₂ p
      | none => [] := by
  simp only [interestedAt, lookupPath]
  cases t.sub ed <;> rfl

theorem interestedAt_new {L : Type} (p : List Edge) :
    interestedAt (TagTree.new (L := L)) p = [] := by
  cases p with
  | nil => rfl
  | cons ed p =>
    rw [interestedAt_cons]
    cases ed <;> rfl

/-- A successful subscribe walk is exactly `insertAtPath` along the path the
filter induces on the walked keys; it fails exactly when that path is
undefined. -/
theorem insertListener_eq {L : Type} (a : L) (f : Filter) :
    ∀ (keys : List Tag) (t : TagTree L),
      insertListener a f t keys =
        match pathOf f keys with
        | some p => some (insertAtPath a t p)
        | none => none := by
  intro keys
  induction keys with
  | nil => intro t; rfl
  | cons k ks ih =>
    intro t
    simp only [insertListener, pathOf, filterEdge]
    cases hk : f.get k with
    | none =>
      rw [ih]
      cases pathOf f ks <;> simp [insertAtPath]
    | some vs =>
      match vs with
      | [] => rfl
      | [v] =>
        simp only [ih]
        cases pathOf f ks <;> simp [insertAtPath]
      | v :: w :: rest => rfl

/-- Inserting a listener at path `p` touches exactly the node at `p`: that
node's `interested` gains the listener at its end, every other node keeps its
`interested` (nodes freshly created along the way carry `[]`, same as the
absent nodes they replace). -/
theorem interestedAt_insertAtPath {L : Type} (a : L) :
    ∀ (p : List Edge) (t : TagTree L) (q : List Edge),
      interestedAt (insertAtPath a t p) q =
        if q = p then interestedAt t q ++ [a] else interestedAt t q := by
  intro p
  induction p with
  | nil =>
    intro t q
    cases q with
    | nil => rfl
    | cons ed q => rw [if_neg (by simp)]; rw [interestedAt_cons, interestedAt_cons]; rfl
  | cons ed p ih =>
    intro t q
    cases q with
    | nil =>
      rw [if_neg (by simp)]
      cases ed <;> rfl
    | cons ed₂ q =>
      by_cases hed : ed₂ = ed
      · subst hed
        have hsub :
            (insertAtPath a t (ed₂ :: p)).sub ed₂ =
              some (insertAtPath a ((t.sub ed₂).getD TagTree.new) p) := by
          cases ed₂ with
          | pass => rfl
          | val v =>
            simp only [insertAtPath, TagTree.sub, TagTree.children]
            rw [lookupKV_setChild_self]
        rw [interestedAt_cons]
        rw [hsub]
        show interestedAt (insertAtPath a ((t.sub ed₂).getD TagTree.new) p) q = _
        rw [ih]
        rw [interestedAt_cons (t := t)]
        cases ht : t.sub ed₂ with
        | some t₂ => by_cases hq : q = p <;> simp [hq]
        | none => by_cases hq : q = p <;> simp [hq, interestedAt_new]
      · rw [if_neg (by simp [hed])]
        have hsub : (insertAtPath a t (ed :: p)).sub ed₂ = t.sub ed₂ := by
          cases ed with
          | pass =>
            cases ed₂ with
            | pass => exact absurd rfl hed
            | val w => rfl
          | val v =>
            cases ed₂ with
            | pass => rfl
            | val w =>
              have hwv : w ≠ v := fun h => hed (by rw [h])
              simp only [insertAtPath, TagTree.sub, TagTree.children]
              exact lookupKV_setChild_ne hwv _ _
        rw [interestedAt_cons, hsub, ← interestedAt_cons]

/-- `TreeScanner.subscribe` in terms of paths. -/
theorem subscribe_eq {L : Type} (s : TreeScanner L) (a : L) (f : Filter) :
    s.subscribe a f =
      match pathOf f ((extendPipeline s.pipeline f).take f.tags.length) with
      | some p => some ⟨extendPipeline s.pipeline f, insertAtPath a s.root p⟩
      | none => none := by
  simp only [TreeScanner.subscribe, insertListener_eq]
  cases pathOf f ((extendPipeline s.pipeline f).take f.tags.length) <;> rfl

/-! ### Counting the invocations of `accept` -/

theorem interestedOf_append {L : Type} (ts₁ ts₂ : List (TagTree L)) :
    interestedOf (ts₁ ++ ts₂) = interestedOf ts₁ ++ interestedOf ts₂ := by
  induction ts₁ with
  | nil => rfl
  | cons t ts ih => simp [interestedOf, ih]

theorem nextFrontier_append {L : Type} (e : Event) (key : Tag) (ts₁ ts₂ : List (TagTree L)) :
    nextFrontier e key (ts₁ ++ ts₂) = nextFrontier e key ts₁ ++ nextFrontier e key ts₂ := by
  induction ts₁ with
  | nil => rfl
  | cons t ts ih => simp [nextFrontier, ih]

theorem acceptWalk_nil {L : Type} (e : Event) (keys : List Tag) :
    acceptWalk (L := L) e [] keys = [] := by
  induction keys with
  | nil => rfl
  | cons k ks ih => simpa [acceptWalk, interestedOf, nextFrontier] using ih

theorem cnt_acceptWalk_append {L : Type} [DecidableEq L] (x : L) (e : Event) :
    ∀ (keys : List Tag) (ts₁ ts₂ : List (TagTree L)),
      cnt x (acceptWalk e (ts₁ ++ ts₂) keys) =
        cnt x (acceptWalk e ts₁ keys) + cnt x (acceptWalk e ts₂ keys) := by
  intro keys
  induction keys with
  | nil =>
    intro ts₁ ts₂
    simp [acceptWalk, interestedOf_append, cnt_append]
  | cons k ks ih =>
    intro ts₁ ts₂
    simp only [acceptWalk, interestedOf_append, nextFrontier_append, cnt_append, ih]
    omega

/-- The breadth-first walk delivers each listener as many times as the
depth-first single-tree walk, summed over the frontier. -/
theorem cnt_acceptWalk_single {L : Type} [DecidableEq L] (x : L) (e : Event) :
    ∀ (keys : List Tag) (t : TagTree L),
      cnt x (acceptWalk e [t] keys) = cnt x (acceptTree e t keys) := by
  intro keys
  induction keys with
  | nil => intro t; simp [acceptWalk, acceptTree, interestedOf, cnt_append]
  | cons k ks ih =>
    intro t
    have hsplit : nextFrontier e k [t] = nextOf e k t := by
      simp [nextFrontier, nextOf]
    simp only [acceptWalk, hsplit, interestedOf, cnt_append]
    cases hp : t.passthrough with
    | none =>
      cases hv : e.get k with
      | none =>
        simp [nextOf, hp, hv, acceptTree, cnt_append, acceptWalk_nil, cnt]
      | some v =>
        cases hc : lookupKV v t.children with
        | none =>
          simp [nextOf, hp, hv, hc, acceptTree, cnt_append, acceptWalk_nil, cnt]
        | some c =>
          simp [nextOf, hp, hv, hc, acceptTree, cnt_append, ih, cnt]
    | some pt =>
      cases hv : e.get k with
      | none =>
        simp [nextOf, hp, hv, acceptTree, cnt_append, ih, cnt]
      | some v =>
        cases hc : lookupKV v t.children with
        | none =>
          simp [nextOf, hp, hv, hc, acceptTree, cnt_append, ih, cnt]
        | some c =>
          simp only [nextOf, hp, hv, hc, acceptTree, cnt_append]
          rw [cnt_acceptWalk_append, ih pt, ih c]
          simp only [cnt]
          omega

/-- Count of `x` in the accept log of a single tree, as a sum over the
event's compatible paths. -/
theorem cnt_acceptTree {L : Type} [DecidableEq L] (x : L) (e : Event) :
    ∀ (keys : List Tag) (t : TagTree L),
      cnt x (acceptTree e t keys) =
        sumf (fun p => cnt x (interestedAt t p)) (compatPaths e keys) := by
  intro keys
  induction keys with
  | nil => intro t; simp [acceptTree, compatPaths, sumf, interestedAt_nil]
  | cons k ks ih =>
    intro t
    have hmap : ∀ (ed : Edge) (t₂ : TagTree L), t.sub ed = some t₂ →
        sumf (fun p => cnt x (interestedAt t p)) ((compatPaths e ks).map (ed :: ·)) =
          cnt x (acceptTree e t₂ ks) := by
      intro ed t₂ hs
      rw [sumf_map, ih]
      exact sumf_congr fun p _ => by simp [interestedAt_cons, hs]
    have hmap0 : ∀ (ed : Edge), t.sub ed = none →
        sumf (fun p => cnt x (interestedAt t p)) ((compatPaths e ks).map (ed :: ·)) = 0 := by
      intro ed hs
      rw [sumf_map]
      exact sumf_zero fun p _ => by simp [interestedAt_cons, hs, cnt]
    cases hv : e.get k with
    | some v =>
      simp only [acceptTree, compatPaths, hv, sumf, cnt_append, interestedAt_nil, sumf_append]
      cases hp : t.passthrough with
      | some pt =>
        rw [hmap Edge.pass pt hp]
        cases hc : lookupKV v t.children with
        | some c =>
          rw [hmap (Edge.val v) c hc]
          simp only [cnt]
          omega
        | none =>
          rw [hmap0 (Edge.val v) hc]
          simp only [cnt]
          omega
      | none =>
        rw [hmap0 Edge.pass hp]
        cases hc : lookupKV v t.children with
        | some c =>
          rw [hmap (Edge.val v) c hc]
          simp only [cnt]
          omega
        | none =>
          rw [hmap0 (Edge.val v) hc]
          simp only [cnt]
    | none =>
      simp only [acceptTree, compatPaths, hv, sumf, cnt_append, interestedAt_nil, sumf_append]
      cases hp : t.passthrough with
      | some pt =>
        rw [hmap Edge.pass pt hp]
        simp only [cnt]
        omega
      | none =>
        rw [hmap0 Edge.pass hp]
        simp only [cnt]

/-- Count of `x` in a `TreeScanner.accept` log: one unit per compatible path,
weighted by the occurrences of `x` stored at that path. -/
theorem cnt_accept {L : Type} [DecidableEq L] (x : L) (e : Event) (s : TreeScanner L) :
    cnt x (s.accept e) =
      sumf (fun p => cnt x (interestedAt s.root p)) (compatPaths e s.pipeline) := by
  rw [TreeScanner.accept, cnt_acceptWalk_single, cnt_acceptTree]

/-! ### Properties of compatible paths -/

theorem compatPaths_nodup (e : Event) : ∀ keys : List Tag,
    (compatPaths e keys).Nodup := by
  intro keys
  induction keys with
  | nil => simp [compatPaths]
  | cons k ks ih =>
    simp only [compatPaths]
    refine List.nodup_cons.mpr ⟨?_, ?_⟩
    · intro hmem
      rcases List.mem_append.mp hmem with h | h
      · rcases List.mem_map.mp h with ⟨p, _, hp⟩
        exact List.cons_ne_nil _ _ hp
      · cases hv : e.get k with
        | some v =>
          rw [hv] at h
          rcases List.mem_map.mp h with ⟨p, _, hp⟩
          exact List.cons_ne_nil _ _ hp
        | none => rw [hv] at h; simp at h
    · refine List.Nodup.append ?_ ?_ ?_
      · exact ih.map fun p q h => by injection h
      · cases hv : e.get k with
        | some v => exact ih.map fun p q h => by injection h
        | none => simp
      · intro p hp hq
        rcases List.mem_map.mp hp with ⟨p₁, _, hp₁⟩
        cases hv : e.get k with
        | some v =>
          rw [hv] at hq
          rcases List.mem_map.mp hq with ⟨p₂, _, hp₂⟩
          rw [← hp₁] at hp₂
          injection hp₂ with h₁ _
          exact Edge.noConfusion h₁
        | none => rw [hv] at hq; simp at hq

theorem mem_compatPaths {e : Event} : ∀ {keys : List Tag} {p : List Edge},
    p ∈ compatPaths e keys ↔ p.length ≤ keys.length ∧ pathCompat e keys p = true := by
  intro keys
  induction keys with
  | nil =>
    intro p
    cases p with
    | nil => simp [compatPaths, pathCompat]
    | cons ed q => simp [compatPaths, pathCompat]
  | cons k ks ih =>
    intro p
    cases p with
    | nil => simp [compatPaths, pathCompat]
    | cons ed q =>
      simp only [compatPaths, List.mem_cons, List.mem_append]
      constructor
      · rintro (h | h | h)
        · exact absurd h (List.cons_ne_nil _ _)
        · rcases List.mem_map.mp h with ⟨p₁, hp₁, he⟩
          obtain ⟨rfl, rfl⟩ : ed = Edge.pass ∧ q = p₁ := by
            injection he.symm with h₁ h₂; exact ⟨h₁, h₂⟩
          rcases ih.mp hp₁ with ⟨hlen, hc⟩
          exact ⟨by simpa using Nat.succ_le_succ hlen,
            by simp [pathCompat, edgeCompat, hc]⟩
        · cases hv : e.get k with
          | some v =>
            rw [hv] at h
            rcases List.mem_map.mp h with ⟨p₁, hp₁, he⟩
            obtain ⟨rfl, rfl⟩ : ed = Edge.val v ∧ q = p₁ := by
              injection he.symm with h₁ h₂; exact ⟨h₁, h₂⟩
            rcases ih.mp hp₁ with ⟨hlen, hc⟩
            exact ⟨by simpa using Nat.succ_le_succ hlen,
              by simp [pathCompat, edgeCompat, hc, hv]⟩
          | none => rw [hv] at h; simp at h
      · rintro ⟨hlen, hc⟩
        simp only [pathCompat, Bool.and_eq_true] at hc
        rcases hc with ⟨hed, hq⟩
        have hq₂ : q ∈ compatPaths e ks :=
          ih.mpr ⟨by simpa using Nat.lt_succ_iff.mp (Nat.lt_of_lt_of_le
            (Nat.lt_succ_of_le (Nat.le_refl _)) (by simpa using hlen)), hq⟩
        cases ed with
        | pass => exact Or.inr (Or.inl (List.mem_map.mpr ⟨q, hq₂, rfl⟩))
        | val v =>
          simp only [edgeCompat, decide_eq_true_eq] at hed
          rw [hed]
          exact Or.inr (Or.inr (List.mem_map.mpr ⟨q, hq₂, rfl⟩))

theorem pathOf_length {f : Filter} : ∀ {keys : List Tag} {p : List Edge},
    pathOf f keys = some p → p.length = keys.length := by
  intro keys
  induction keys with
  | nil => intro p h; simp [pathOf] at h; simp [← h]
  | cons k ks ih =>
    intro p h
    simp only [pathOf] at h
    cases hed : filterEdge f k with
    | none => rw [hed] at h; simp at h
    | some ed =>
      rw [hed] at h
      cases hp : pathOf f ks with
      | none => rw [hp] at h; simp at h
      | some p₁ =>
        rw [hp] at h
        simp only [Option.some.injEq] at h
        rw [← h]
        simp [ih hp]

/-- `pathCompat` only consults the first `p.length` keys: extending the key
list beyond a path's length does not change compatibility. -/
theorem pathCompat_extend (e : Event) :
    ∀ (p : List Edge) (keys ext : List Tag), p.length ≤ keys.length →
      pathCompat e (keys ++ ext) p = pathCompat e keys p := by
  intro p
  induction p with
  | nil => intro keys ext _; simp [pathCompat]
  | cons ed q ih =>
    intro keys ext hlen
    cases keys with
    | nil => simp at hlen
    | cons k ks =>
      simp only [List.cons_append, pathCompat]
      show (edgeCompat e k ed && pathCompat e (ks ++ ext) q) = _
      rw [ih ks ext (by simpa using hlen)]

/-! ### The built scanner, path by path -/

theorem subscribe_some {L : Type} {s s₁ : TreeScanner L} {a : L} {f : Filter}
    (h : s.subscribe a f = some s₁) :
    ∃ p, pathOf f ((extendPipeline s.pipeline f).take f.tags.length) = some p ∧
      s₁ = ⟨extendPipeline s.pipeline f, insertAtPath a s.root p⟩ := by
  rw [subscribe_eq] at h
  cases hpath : pathOf f ((extendPipeline s.pipeline f).take f.tags.length) with
  | none =>
    rw [hpath] at h
    exact absurd (h : (none : Option (TreeScanner L)) = some s₁) (by simp)
  | some p =>
    rw [hpath] at h
    exact ⟨p, rfl, (Option.some.inj
      (h : some (⟨extendPipeline s.pipeline f, insertAtPath a s.root p⟩ : TreeScanner L)
        = some s₁)).symm⟩

theorem subscribe_none {L : Type} {s : TreeScanner L} {a : L} {f : Filter}
    (h : s.subscribe a f = none) :
    pathOf f ((extendPipeline s.pipeline f).take f.tags.length) = none := by
  rw [subscribe_eq] at h
  cases hpath : pathOf f ((extendPipeline s.pipeline f).take f.tags.length) with
  | none => rfl
  | some p =>
    rw [hpath] at h
    exact absurd (h : some (⟨extendPipeline s.pipeline f,
      insertAtPath a s.root p⟩ : TreeScanner L) = none) (by simp)

theorem extendPipeline_extends (pl : List Tag) (f : Filter) :
    ∃ ext, extendPipeline pl f = pl ++ ext :=
  ⟨_, rfl⟩

theorem pipeAfter_extends {L : Type} :
    ∀ (subs : List (L × Filter)) (pl : List Tag), ∃ ext, pipeAfter pl subs = pl ++ ext := by
  intro subs
  induction subs with
  | nil => intro pl; exact ⟨[], by simp [pipeAfter]⟩
  | cons af rest ih =>
    intro pl
    obtain ⟨a, f⟩ := af
    obtain ⟨ext₁, h₁⟩ := ih (extendPipeline pl f)
    exact ⟨_, by rw [pipeAfter, h₁, extendPipeline, List.append_assoc]⟩

theorem buildFrom_pipeline {L : Type} :
    ∀ (subs : List (L × Filter)) (s s₂ : TreeScanner L),
      buildFrom s subs = some s₂ → s₂.pipeline = pipeAfter s.pipeline subs := by
  intro subs
  induction subs with
  | nil =>
    intro s s₂ h
    rw [← Option.some.inj (h : some s = some s₂)]
    rfl
  | cons af rest ih =>
    intro s s₂ h
    obtain ⟨a, f⟩ := af
    simp only [buildFrom] at h
    cases hsub : s.subscribe a f with
    | none =>
      rw [hsub] at h
      exact absurd (h : (none : Option (TreeScanner L)) = some s₂) (by simp)
    | some s₁ =>
      rw [hsub] at h
      obtain ⟨p₀, hpath, hs₁⟩ := subscribe_some hsub
      have := ih s₁ s₂ (h : buildFrom s₁ rest = some s₂)
      rw [hs₁] at this
      exact this

/-- Building on top of scanner `s` changes each node's stored-listener count
by exactly the subscriptions that walk to it. -/
theorem buildFrom_cnt {L : Type} [DecidableEq L] :
    ∀ (subs : List (L × Filter)) (s s₂ : TreeScanner L),
      buildFrom s subs = some s₂ → ∀ (x : L) (q : List Edge),
        cnt x (interestedAt s₂.root q) =
          cnt x (interestedAt s.root q) + pathAdds x q s.pipeline subs := by
  intro subs
  induction subs with
  | nil =>
    intro s s₂ h x q
    rw [← Option.some.inj (h : some s = some s₂)]
    simp [pathAdds]
  | cons af rest ih =>
    intro s s₂ h x q
    obtain ⟨a, f⟩ := af
    simp only [buildFrom] at h
    cases hsub : s.subscribe a f with
    | none =>
      rw [hsub] at h
      exact absurd (h : (none : Option (TreeScanner L)) = some s₂) (by simp)
    | some s₁ =>
      rw [hsub] at h
      obtain ⟨p₀, hpath, hs₁⟩ := subscribe_some hsub
      have hstep := ih s₁ s₂ (h : buildFrom s₁ rest = some s₂) x q
      rw [hs₁] at hstep
      simp only at hstep
      rw [interestedAt_insertAtPath] at hstep
      simp only [pathAdds, hpath]
      by_cases hq : q = p₀
      · subst hq
        rw [if_pos rfl] at hstep
        rw [cnt_append] at hstep
        have hone : (if x = a ∧ some q = some q then 1 else 0) =
            (if a = x then 1 else 0) := by
          by_cases hxa : x = a
          · subst hxa; simp
          · have hax : a ≠ x := fun hh => hxa hh.symm
            simp [hxa, hax]
        rw [hstep, hone]
        simp [cnt]
        omega
      · rw [if_neg hq] at hstep
        have hzero : (if x = a ∧ some p₀ = some q then 1 else 0) = 0 := by
          have hpq : p₀ ≠ q := fun hh => hq hh.symm
          simp [hpq]
        rw [hstep, hzero]
        omega

/-! ### The master counting theorems -/

theorem sumf_pathAdds {L : Type} [DecidableEq L] (x : L) (e : Event) :
    ∀ (subs : List (L × Filter)) (pl : List Tag),
      sumf (fun p => pathAdds x p pl subs) (compatPaths e (pipeAfter pl subs)) =
        specTreeCnt x e pl subs := by
  intro subs
  induction subs with
  | nil => intro pl; exact sumf_zero fun p _ => rfl
  | cons af rest ih =>
    intro pl
    obtain ⟨a, f⟩ := af
    simp only [pipeAfter, pathAdds, specTreeCnt]
    rw [sumf_add, ih (extendPipeline pl f)]
    have hind :
        sumf (fun p =>
            if x = a ∧ pathOf f ((extendPipeline pl f).take f.tags.length) = some p
            then 1 else 0)
          (compatPaths e (pipeAfter (extendPipeline pl f) rest)) =
          (if x = a ∧ firesAt e (extendPipeline pl f) f then 1 else 0) := by
      cases hpath : pathOf f ((extendPipeline pl f).take f.tags.length) with
      | none =>
        rw [sumf_zero fun p _ => by simp [hpath]]
        simp [firesAt, hpath]
      | some p₀ =>
        by_cases hxa : x = a
        · subst hxa
          have hstep :
              sumf (fun p => if x = x ∧ some p₀ = some p then 1 else 0)
                (compatPaths e (pipeAfter (extendPipeline pl f) rest)) =
                sumf (fun p => if p = p₀ then 1 else 0)
                  (compatPaths e (pipeAfter (extendPipeline pl f) rest)) :=
            sumf_congr fun p _ => by
              by_cases hpp : p = p₀
              · subst hpp; simp
              · have h2 : p₀ ≠ p := fun hh => hpp hh.symm
                simp [h2, hpp]
          rw [hstep, sumf_indicator (compatPaths_nodup e _)]
          have hlen : p₀.length ≤ (extendPipeline pl f).length := by
            rw [pathOf_length hpath]
            simp [List.length_take]
          obtain ⟨ext, hext⟩ := pipeAfter_extends rest (extendPipeline pl f)
          have hcompat : pathCompat e (pipeAfter (extendPipeline pl f) rest) p₀ =
              pathCompat e (extendPipeline pl f) p₀ := by
            rw [hext]
            exact pathCompat_extend e p₀ _ ext hlen
          have hmem : p₀ ∈ compatPaths e (pipeAfter (extendPipeline pl f) rest) ↔
              pathCompat e (extendPipeline pl f) p₀ = true := by
            rw [mem_compatPaths, hcompat]
            have : p₀.length ≤ (pipeAfter (extendPipeline pl f) rest).length := by
              rw [hext]
              simp only [List.length_append]
              omega
            simp [this]
          cases hc : pathCompat e (extendPipeline pl f) p₀ with
          | true => simp [hmem.mpr hc, firesAt, hpath, hc]
          | false =>
            have : p₀ ∉ compatPaths e (pipeAfter (extendPipeline pl f) rest) := by
              intro hmm
              rw [hmem] at hmm
              rw [hmm] at hc
              exact Bool.noConfusion hc
            simp [this, firesAt, hpath, hc]
        · rw [sumf_zero fun p _ => by simp [hxa]]
          simp [hxa]
    rw [hind]

/-- The tree strategy's delivery count, computed from the subscription list. -/
theorem buildTree_cnt {L : Type} [DecidableEq L] {subs : List (L × Filter)}
    {s : TreeScanner L} (h : buildTree L subs = some s) (x : L) (e : Event) :
    cnt x (s.accept e) = specTreeCnt x e [] subs := by
  have hpl : s.pipeline = pipeAfter [] subs :=
    buildFrom_pipeline subs (TreeScanner.empty L) s h
  have hcnt := buildFrom_cnt subs (TreeScanner.empty L) s h x
  have h1 : sumf (fun p => cnt x (interestedAt s.root p))
      (compatPaths e (pipeAfter [] subs)) =
      sumf (fun p => pathAdds x p [] subs) (compatPaths e (pipeAfter [] subs)) :=
    sumf_congr fun p _ => by
      rw [hcnt p]
      simp [TreeScanner.empty, interestedAt_new, cnt]
  rw [cnt_accept, hpl, h1, sumf_pathAdds]

theorem cnt_acceptList {L : Type} [DecidableEq L] (x : L) (e : Event) :
    ∀ lst : List (L × Filter), cnt x (acceptList e lst) = specLinCnt x e lst := by
  intro lst
  induction lst with
  | nil => rfl
  | cons af rest ih =>
    obtain ⟨a, f⟩ := af
    simp only [acceptList, specLinCnt]
    cases hm : f.matches e with
    | false => simp [cnt_append, ih, cnt, hm]
    | true =>
      simp only [hm, if_true, cnt_append, ih, and_true]
      by_cases hxa : x = a
      · subst hxa; simp [cnt]
      · have hax : a ≠ x := fun hh => hxa hh.symm
        simp [cnt, hxa, hax]

theorem buildLinFrom_listeners {L : Type} :
    ∀ (subs : List (L × Filter)) (s : LinearScan L),
      (buildLinFrom s subs).listeners = s.listeners ++ subs := by
  intro subs
  induction subs with
  | nil => intro s; simp [buildLinFrom]
  | cons af rest ih =>
    intro s
    obtain ⟨a, f⟩ := af
    rw [buildLinFrom, ih, LinearScan.subscribe]
    simp

/-- The linear strategy's delivery count, computed from the subscription
list. -/
theorem buildLinear_cnt {L : Type} [DecidableEq L] (subs : List (L × Filter))
    (x : L) (e : Event) :
    cnt x ((buildLinear L subs).accept e) = specLinCnt x e subs := by
  rw [LinearScan.accept, buildLinear, buildLinFrom_listeners]
  show cnt x (acceptList e ([] ++ subs)) = specLinCnt x e subs
  rw [List.nil_append, cnt_acceptList]

/-! ### When the two strategies agree -/

theorem pathOf_total {f : Filter} (hsingle : ∀ kv ∈ f.tags, ∃ v, kv.2 = [v]) :
    ∀ keys : List Tag, ∃ p, pathOf f keys = some p := by
  intro keys
  induction keys with
  | nil => exact ⟨[], rfl⟩
  | cons k ks ih =>
    obtain ⟨p, hp⟩ := ih
    have hed : ∃ ed, filterEdge f k = some ed := by
      cases hk : f.get k with
      | none => exact ⟨.pass, by simp [filterEdge, hk]⟩
      | some vs =>
        obtain ⟨v, hv⟩ := hsingle (k, vs) (lookupKV_mem hk)
        subst hv
        exact ⟨.val v, by simp [filterEdge, hk]⟩
    obtain ⟨ed, hed⟩ := hed
    exact ⟨ed :: p, by simp [pathOf, hed, hp]⟩

/-- Reachability of a subscribe walk's node, key by key: the event must agree
with the filter's (singleton) constraint on every walked key it constrains. -/
theorem pathCompat_pathOf {e : Event} {f : Filter} :
    ∀ {keys : List Tag} {p : List Edge}, pathOf f keys = some p →
      (pathCompat e keys p = true ↔
        ∀ k ∈ keys, ∀ vs, f.get k = some vs → ∃ v, vs = [v] ∧ e.get k = some v) := by
  intro keys
  induction keys with
  | nil =>
    intro p h
    obtain rfl : p = [] := by simpa [pathOf] using h.symm
    simp [pathCompat]
  | cons k ks ih =>
    intro p h
    simp only [pathOf] at h
    cases hed : filterEdge f k with
    | none => rw [hed] at h; exact absurd h (by simp)
    | some ed =>
      rw [hed] at h
      cases hp : pathOf f ks with
      | none => rw [hp] at h; exact absurd h (by simp)
      | some p₁ =>
        rw [hp] at h
        obtain rfl : p = ed :: p₁ := (Option.some.inj h).symm
        simp only [pathCompat, Bool.and_eq_true]
        rw [ih hp]
        have hhead : edgeCompat e k ed = true ↔
            (∀ vs, f.get k = some vs → ∃ v, vs = [v] ∧ e.get k = some v) := by
          simp only [filterEdge] at hed
          cases hk : f.get k with
          | none =>
            rw [hk] at hed
            obtain rfl : ed = Edge.pass := by simpa using (Option.some.inj hed).symm
            simp [edgeCompat]
          | some vs =>
            rw [hk] at hed
            match vs, hed with
            | [v], hed =>
              obtain rfl : ed = Edge.val v := by simpa using (Option.some.inj hed).symm
              constructor
              · intro hc vs₂ hvs₂
                obtain rfl : vs₂ = [v] := by
                  simpa using Option.some.inj hvs₂.symm
                exact ⟨v, rfl, by simpa [edgeCompat] using hc⟩
              · intro hall
                obtain ⟨w, hw, hew⟩ := hall [v] rfl
                obtain rfl : w = v := by simpa using hw.symm
                simp [edgeCompat, hew]
        constructor
        · rintro ⟨h₁, h₂⟩
          intro k₂ hk₂ vs hvs
          rcases List.mem_cons.mp hk₂ with rfl | hk₂
          · exact hhead.mp h₁ vs hvs
          · exact h₂ k₂ hk₂ vs hvs
        · intro hall
          exact ⟨hhead.mpr fun vs hvs => hall k (by simp) vs hvs,
            fun k₂ hk₂ vs hvs => hall k₂ (by simp [hk₂]) vs hvs⟩

theorem pathCompat_take (e : Event) (pl : List Tag) (n : Nat) (p : List Edge)
    (hlen : p.length ≤ (pl.take n).length) :
    pathCompat e pl p = pathCompat e (pl.take n) p := by
  conv_lhs => rw [← List.take_append_drop n pl]
  exact pathCompat_extend e p (pl.take n) (pl.drop n) hlen

/-- On a filter with only singleton constraints, all of whose constrained
tags lie within the walked pipeline positions, the tree strategy delivers
exactly when the linear match predicate holds. -/
theorem firesAt_eq_matches {f : Filter} {e : Event} {pl₂ : List Tag}
    (hnd : (f.tags.map Prod.fst).Nodup)
    (hsingle : ∀ kv ∈ f.tags, ∃ v, kv.2 = [v])
    (hcover : ∀ kv ∈ f.tags, kv.1 ∈ pl₂.take f.tags.length) :
    firesAt e pl₂ f = f.matches e := by
  obtain ⟨p, hp⟩ := pathOf_total hsingle (pl₂.take f.tags.length)
  have hlen : p.length ≤ (pl₂.take f.tags.length).length := by
    rw [pathOf_length hp]
  have hiff : pathCompat e pl₂ p = true ↔ f.matches e = true := by
    rw [pathCompat_take e pl₂ f.tags.length p hlen, pathCompat_pathOf hp]
    constructor
    · intro hall
      rw [Filter.matches, List.all_eq_true]
      intro kv hkv
      obtain ⟨v, hv⟩ := hsingle kv hkv
      have hget : f.get kv.1 = some kv.2 := mem_lookupKV hnd (by
        obtain ⟨k₂, vs₂⟩ := kv
        exact hkv)
      obtain ⟨w, hw, hew⟩ := hall kv.1 (hcover kv hkv) kv.2 hget
      rw [hew]
      simp [hw]
    · intro hm k hk vs hvs
      have hmem : (k, vs) ∈ f.tags := lookupKV_mem hvs
      obtain ⟨v, hv⟩ := hsingle (k, vs) hmem
      subst hv
      have := (List.all_eq_true.mp hm) (k, [v]) hmem
      cases hev : e.get k with
      | none => rw [Filter.matches] at hm; rw [hev] at this; simp at this
      | some w =>
        rw [hev] at this
        simp only [decide_eq_true_eq, List.mem_singleton] at this
        exact ⟨v, rfl, congrArg some this⟩
  rw [firesAt, hp]
  show pathCompat e pl₂ p = f.matches e
  cases hc : pathCompat e pl₂ p with
  | true => exact (hiff.mp hc).symm
  | false =>
    cases hm : f.matches e with
    | false => rfl
    | true =>
      rw [hiff.mpr hm] at hc
      exact Bool.noConfusion hc

/-- The well-formedness condition of the match-equivalence property: every
filter constrains each tag to exactly one value (and names each tag once),
and each filter's constrained tags lie within the first `N` pipeline
positions at its subscribe time (`N` = that filter's tag count). -/
def goodSubs {L : Type} (pl : List Tag) : List (L × Filter) → Bool
  | [] => true
  | (_, f) :: rest =>
      (decide (f.tags.map Prod.fst).Nodup &&
        f.tags.all (fun kv => kv.2.length == 1) &&
        f.tags.all (fun kv => decide (kv.1 ∈ (extendPipeline pl f).take f.tags.length))) &&
      goodSubs (extendPipeline pl f) rest

theorem spec_cnt_eq {L : Type} [DecidableEq L] (x : L) (e : Event) :
    ∀ (subs : List (L × Filter)) (pl : List Tag), goodSubs pl subs = true →
      specTreeCnt x e pl subs = specLinCnt x e subs := by
  intro subs
  induction subs with
  | nil => intro pl _; rfl
  | cons af rest ih =>
    intro pl hgood
    obtain ⟨a, f⟩ := af
    simp only [goodSubs, Bool.and_eq_true, decide_eq_true_eq, List.all_eq_true] at hgood
    obtain ⟨⟨⟨hnd, hsingle⟩, hcover⟩, hrest⟩ := hgood
    have hsingle₂ : ∀ kv ∈ f.tags, ∃ v, kv.2 = [v] := by
      intro kv hkv
      have := hsingle kv hkv
      rwa [beq_iff_eq, List.length_eq_one] at this
    have hcover₂ : ∀ kv ∈ f.tags, kv.1 ∈ (extendPipeline pl f).take f.tags.length := by
      intro kv hkv
      simpa using hcover kv hkv
    simp only [specTreeCnt, specLinCnt]
    rw [firesAt_eq_matches hnd hsingle₂ hcover₂, ih (extendPipeline pl f) hrest]

/-! ### Stability of the accept count under pipeline growth -/

theorem sumf_cnt_edge {L : Type} [DecidableEq L] (x : L) (t : TagTree L) (ed : Edge)
    (R : List (List Edge)) :
    sumf (fun p => cnt x (interestedAt t p)) (R.map (ed :: ·)) =
      match t.sub ed with
      | some t₂ => sumf (fun p => cnt x (interestedAt t₂ p)) R
      | none => 0 := by
  rw [sumf_map]
  cases hs : t.sub ed with
  | some t₂ => exact sumf_congr fun p _ => by simp [interestedAt_cons, hs]
  | none => exact sumf_zero fun p _ => by simp [interestedAt_cons, hs, cnt]

/-- If no listener is stored deeper than `n` and the key list is at least
`n` long, extending the key list does not change the total delivery count. -/
theorem sumf_cnt_extend {L : Type} [DecidableEq L] (x : L) (e : Event) :
    ∀ (pl : List Tag) (t : TagTree L) (n : Nat) (ext : List Tag),
      (∀ q : List Edge, n < q.length → interestedAt t q = []) → n ≤ pl.length →
      sumf (fun p => cnt x (interestedAt t p)) (compatPaths e (pl ++ ext)) =
        sumf (fun p => cnt x (interestedAt t p)) (compatPaths e pl) := by
  intro pl
  induction pl with
  | nil =>
    intro t n ext hbnd hn
    obtain rfl : n = 0 := Nat.le_zero.mp hn
    have hzero : ∀ (ed : Edge) (R : List (List Edge)),
        sumf (fun p => cnt x (interestedAt t p)) (R.map (ed :: ·)) = 0 := by
      intro ed R
      rw [sumf_map]
      exact sumf_zero fun p _ => by rw [hbnd (ed :: p) (by simp)]; rfl
    cases ext with
    | nil => rfl
    | cons k ks =>
      cases hv : e.get k with
      | some v =>
        show sumf (fun p => cnt x (interestedAt t p)) (compatPaths e (k :: ks)) = _
        simp only [compatPaths, hv, sumf, sumf_append, interestedAt_nil]
        rw [hzero Edge.pass, hzero (Edge.val v)]
      | none =>
        show sumf (fun p => cnt x (interestedAt t p)) (compatPaths e (k :: ks)) = _
        simp only [compatPaths, hv, sumf, sumf_append, interestedAt_nil]
        rw [hzero Edge.pass]
  | cons k pl₂ ih =>
    intro t n ext hbnd hn
    have hbnd₂ : ∀ (ed : Edge) (t₂ : TagTree L), t.sub ed = some t₂ →
        ∀ q : List Edge, n - 1 < q.length → interestedAt t₂ q = [] := by
      intro ed t₂ hs q hq
      have h2 : interestedAt t (ed :: q) = [] :=
        hbnd (ed :: q) (by simp only [List.length_cons]; omega)
      simpa [interestedAt_cons, hs] using h2
    have hpart : ∀ ed : Edge,
        sumf (fun p => cnt x (interestedAt t p))
            ((compatPaths e (pl₂ ++ ext)).map (ed :: ·)) =
          sumf (fun p => cnt x (interestedAt t p))
            ((compatPaths e pl₂).map (ed :: ·)) := by
      intro ed
      rw [sumf_cnt_edge, sumf_cnt_edge]
      cases hs : t.sub ed with
      | some t₂ =>
        show sumf (fun p => cnt x (interestedAt t₂ p)) (compatPaths e (pl₂ ++ ext)) =
          sumf (fun p => cnt x (interestedAt t₂ p)) (compatPaths e pl₂)
        exact ih t₂ (n - 1) ext (hbnd₂ ed t₂ hs)
          (by simp only [List.length_cons] at hn; omega)
      | none => rfl
    cases hv : e.get k with
    | some v =>
      simp only [List.cons_append, compatPaths, hv, sumf, sumf_append, interestedAt_nil]
      congr 1
      congr 1
      · exact hpart Edge.pass
      · exact hpart (Edge.val v)
    | none =>
      simp only [List.cons_append, compatPaths, hv, sumf, sumf_append, interestedAt_nil]
      congr 1
      exact hpart Edge.pass

/-- A subscription sequence stores nothing deeper than the final pipeline. -/
theorem pathAdds_deep {L : Type} [DecidableEq L] (x : L) (q : List Edge) :
    ∀ (subs : List (L × Filter)) (pl : List Tag),
      (pipeAfter pl subs).length < q.length → pathAdds x q pl subs = 0 := by
  intro subs
  induction subs with
  | nil => intro pl _; rfl
  | cons af rest ih =>
    intro pl hlt
    obtain ⟨a, f⟩ := af
    simp only [pipeAfter] at hlt
    simp only [pathAdds]
    rw [ih (extendPipeline pl f) hlt]
    have hind : (if x = a ∧
        pathOf f ((extendPipeline pl f).take f.tags.length) = some q
        then 1 else 0) = 0 := by
      obtain ⟨ext, hext⟩ := pipeAfter_extends rest (extendPipeline pl f)
      by_cases hc : x = a ∧ pathOf f ((extendPipeline pl f).take f.tags.length) = some q
      · exfalso
        have hlen := pathOf_length hc.2
        rw [List.length_take] at hlen
        rw [hext, List.length_append] at hlt
        omega
      · rw [if_neg hc]
    rw [hind]

theorem buildTree_bounded {L : Type} [DecidableEq L] {subs : List (L × Filter)}
    {s : TreeScanner L} (h : buildTree L subs = some s) :
    ∀ q : List Edge, s.pipeline.length < q.length → interestedAt s.root q = [] := by
  intro q hq
  cases hl : interestedAt s.root q with
  | nil => rfl
  | cons y ys =>
    exfalso
    have hcnt := buildFrom_cnt subs (TreeScanner.empty L) s h y q
    rw [hl] at hcnt
    have h0 : cnt y (interestedAt (TreeScanner.empty L).root q) = 0 := by
      simp [TreeScanner.empty, interestedAt_new, cnt]
    rw [h0] at hcnt
    have hpl : s.pipeline = pipeAfter [] subs :=
      buildFrom_pipeline subs (TreeScanner.empty L) s h
    have hdeep : pathAdds y q (TreeScanner.empty L).pipeline subs = 0 :=
      pathAdds_deep y q subs [] (by rw [← hpl]; exact hq)
    rw [hdeep] at hcnt
    rw [cnt_cons, if_pos rfl] at hcnt
    omega

/-- A positive path count names a subscription of `x` whose walk produced
that path. -/
theorem pathAdds_pos_mem {L : Type} [DecidableEq L] (x : L) (q : List Edge) :
    ∀ (subs : List (L × Filter)) (pl : List Tag), 0 < pathAdds x q pl subs →
      ∃ af ∈ subs, af.1 = x ∧ ∃ pl₁,
        pathOf af.2 ((extendPipeline pl₁ af.2).take af.2.tags.length) = some q := by
  intro subs
  induction subs with
  | nil => intro pl h; simp [pathAdds] at h
  | cons af rest ih =>
    intro pl h
    obtain ⟨a, f⟩ := af
    simp only [pathAdds] at h
    by_cases hc : x = a ∧ pathOf f ((extendPipeline pl f).take f.tags.length) = some q
    · exact ⟨(a, f), by simp, hc.1.symm, pl, hc.2⟩
    · rw [if_neg hc] at h
      obtain ⟨af₂, hmem, hx, hpl₁⟩ := ih (extendPipeline pl f) (by omega)
      exact ⟨af₂, by simp [hmem], hx, hpl₁⟩

theorem length_le_extendPipeline {pl : List Tag} {f : Filter}
    (hnd : (f.tags.map Prod.fst).Nodup) :
    f.tags.length ≤ (extendPipeline pl f).length := by
  have hsub : (f.tags.map Prod.fst) ⊆ extendPipeline pl f := by
    intro k hk
    by_cases hmem : k ∈ pl
    · exact List.mem_append.mpr (Or.inl hmem)
    · refine List.mem_append.mpr (Or.inr ?_)
      rw [List.mem_filter]
      exact ⟨hk, by simpa using hmem⟩
  have hperm := hnd.subperm hsub
  have hlen := hperm.length_le
  simpa using hlen

/-! ### The delivery order of the frontier walk -/

def joinL {α : Type} : List (List α) → List α
  | [] => []
  | l :: ls => l ++ joinL ls

/-- The groups of deliveries of one `accept` call: the frontier's interested
lists at each depth, in walk order. -/
def walkGroups {L : Type} (e : Event) : List (TagTree L) → List Tag → List (List L)
  | ts, [] => [interestedOf ts]
  | ts, key :: rest => interestedOf ts :: walkGroups e (nextFrontier e key ts) rest

theorem acceptWalk_eq_joinL {L : Type} (e : Event) :
    ∀ (keys : List Tag) (ts : List (TagTree L)),
      acceptWalk e ts keys = joinL (walkGroups e ts keys) := by
  intro keys
  induction keys with
  | nil => intro ts; simp [acceptWalk, walkGroups, joinL]
  | cons k ks ih => intro ts; simp [acceptWalk, walkGroups, joinL, ih]

theorem mem_interestedOf {L : Type} {x : L} :
    ∀ {ts : List (TagTree L)}, x ∈ interestedOf ts ↔ ∃ t ∈ ts, x ∈ t.interested := by
  intro ts
  induction ts with
  | nil => simp [interestedOf]
  | cons t ts ih => simp [interestedOf, List.mem_append, ih]

theorem mem_nextOf {L : Type} {e : Event} {key : Tag} {t t₂ : TagTree L} :
    t₂ ∈ nextOf e key t ↔
      ∃ ed, edgeCompat e key ed = true ∧ t.sub ed = some t₂ := by
  constructor
  · intro h
    rcases List.mem_append.mp h with h | h
    · cases hp : t.passthrough with
      | some pt =>
        simp only [hp, List.mem_singleton] at h
        subst h
        exact ⟨.pass, rfl, by simp [TagTree.sub, hp]⟩
      | none => simp [hp] at h
    · cases hv : e.get key with
      | some v =>
        simp only [hv] at h
        cases hc : lookupKV v t.children with
        | some c =>
          simp only [hc, List.mem_singleton] at h
          subst h
          exact ⟨.val v, by simp [edgeCompat, hv], by simp [TagTree.sub, hc]⟩
        | none => simp [hc] at h
      | none => simp [hv] at h
  · rintro ⟨ed, hcompat, hsub⟩
    cases ed with
    | pass =>
      refine List.mem_append.mpr (Or.inl ?_)
      rw [show t.passthrough = some t₂ from hsub]
      simp
    | val v =>
      simp only [edgeCompat, decide_eq_true_eq] at hcompat
      refine List.mem_append.mpr (Or.inr ?_)
      rw [hcompat]
      simp only [show lookupKV v t.children = some t₂ from hsub]
      simp

theorem mem_nextFrontier {L : Type} {e : Event} {key : Tag} {t₂ : TagTree L} :
    ∀ {ts : List (TagTree L)}, t₂ ∈ nextFrontier e key ts ↔
      ∃ t ∈ ts, ∃ ed, edgeCompat e key ed = true ∧ t.sub ed = some t₂ := by
  intro ts
  induction ts with
  | nil => simp [nextFrontier]
  | cons t ts ih =>
    simp only [nextFrontier, List.mem_append, ih, List.mem_cons]
    constructor
    · rintro (h | ⟨t₁, ht₁, hed⟩)
      · exact ⟨t, Or.inl rfl, mem_nextOf.mp h⟩
      · exact ⟨t₁, Or.inr ht₁, hed⟩
    · rintro ⟨t₁, ht₁ | ht₁, hed⟩
      · subst ht₁
        exact Or.inl (mem_nextOf.mpr hed)
      · exact Or.inr ⟨t₁, ht₁, hed⟩

/-- A listener delivered in the `i`-th group of the walk sits at depth `i`
of some frontier tree, on an event-compatible path. -/
theorem walkGroups_mem {L : Type} (e : Event) :
    ∀ (keys : List Tag) (ts : List (TagTree L)) (i : Nat) (x : L),
      x ∈ (walkGroups e ts keys).getD i [] →
      ∃ t ∈ ts, ∃ p : List Edge, p.length = i ∧ pathCompat e keys p = true ∧
        x ∈ interestedAt t p := by
  intro keys
  induction keys with
  | nil =>
    intro ts i x h
    cases i with
    | zero =>
      simp only [walkGroups, List.getD_cons_zero] at h
      obtain ⟨t, ht, hx⟩ := mem_interestedOf.mp h
      exact ⟨t, ht, [], rfl, rfl, by rwa [interestedAt_nil]⟩
    | succ i => simp [walkGroups, List.getD] at h
  | cons k ks ih =>
    intro ts i x h
    cases i with
    | zero =>
      simp only [walkGroups, List.getD_cons_zero] at h
      obtain ⟨t, ht, hx⟩ := mem_interestedOf.mp h
      exact ⟨t, ht, [], rfl, rfl, by rwa [interestedAt_nil]⟩
    | succ i =>
      simp only [walkGroups, List.getD_cons_succ] at h
      obtain ⟨t₂, ht₂, p₁, hlen, hcompat, hx⟩ := ih (nextFrontier e k ts) i x h
      obtain ⟨t, ht, ed, hed, hsub⟩ := mem_nextFrontier.mp ht₂
      refine ⟨t, ht, ed :: p₁, by simp [hlen], ?_, ?_⟩
      · simp [pathCompat, hed, hcompat]
      · rw [interestedAt_cons, hsub]
        exact hx

/-! ### Per-claim support lemmas -/

theorem pathCompat_nil_path (e : Event) (keys : List Tag) :
    pathCompat e keys [] = true := by
  cases keys <;> rfl

theorem specTreeCnt_le_ids {L : Type} [DecidableEq L] (x : L) (e : Event) :
    ∀ (subs : List (L × Filter)) (pl : List Tag),
      specTreeCnt x e pl subs ≤ cnt x (subs.map Prod.fst) := by
  intro subs
  induction subs with
  | nil => intro pl; simp [specTreeCnt, cnt]
  | cons af rest ih =>
    intro pl
    obtain ⟨a, f⟩ := af
    simp only [specTreeCnt, List.map_cons, cnt_cons]
    have h1 := ih (extendPipeline pl f)
    have h2 : (if x = a ∧ firesAt e (extendPipeline pl f) f = true then 1 else 0) ≤
        (if a = x then 1 else 0) := by
      by_cases hax : a = x
      · simp [hax]
        by_cases hf : firesAt e (extendPipeline pl f) f = true <;> simp [hf]
      · have hxa : ¬x = a := fun hh => hax hh.symm
        simp [hax, hxa]
    omega

theorem firesAt_empty_filter (e : Event) (pl₂ : List Tag) :
    firesAt e pl₂ (Filter.mk []) = true := by
  rw [firesAt]
  have h1 : pathOf (Filter.mk []) (pl₂.take (Filter.mk []).tags.length) = some [] := rfl
  rw [h1]
  exact pathCompat_nil_path e pl₂

theorem specTreeCnt_empty_filter {L : Type} [DecidableEq L] (x : L) (e : Event) :
    ∀ (subs : List (L × Filter)) (pl : List Tag), (x, Filter.mk []) ∈ subs →
      0 < specTreeCnt x e pl subs := by
  intro subs
  induction subs with
  | nil => intro pl h; simp at h
  | cons af rest ih =>
    intro pl hmem
    obtain ⟨a, f⟩ := af
    rcases List.mem_cons.mp hmem with heq | htail
    · obtain ⟨rfl, rfl⟩ : a = x ∧ f = Filter.mk [] := by
        obtain ⟨h₁, h₂⟩ := Prod.mk.injEq .. ▸ heq.symm
        exact ⟨h₁, h₂⟩
      simp only [specTreeCnt, firesAt_empty_filter]
      simp
    · have := ih (extendPipeline pl f) htail
      simp only [specTreeCnt]
      omega

theorem matches_empty_filter (e : Event) : (Filter.mk []).matches e = true := rfl

theorem specLinCnt_pos_of_matching {L : Type} [DecidableEq L] {x : L} {f : Filter}
    {e : Event} (hm : f.matches e = true) :
    ∀ subs : List (L × Filter), (x, f) ∈ subs → 0 < specLinCnt x e subs := by
  intro subs
  induction subs with
  | nil => intro h; simp at h
  | cons af rest ih =>
    intro hmem
    obtain ⟨a, g⟩ := af
    rcases List.mem_cons.mp hmem with heq | htail
    · obtain ⟨rfl, rfl⟩ : a = x ∧ g = f := by
        obtain ⟨h₁, h₂⟩ := Prod.mk.injEq .. ▸ heq.symm
        exact ⟨h₁, h₂⟩
      simp only [specLinCnt, hm]
      simp
    · have := ih htail
      simp only [specLinCnt]
      omega

/-- Coverage condition alone: each filter's constrained tags lie within the
first `N` pipeline positions at its subscribe time. -/
def coveredSubs {L : Type} (pl : List Tag) : List (L × Filter) → Bool
  | [] => true
  | (_, f) :: rest =>
      f.tags.all (fun kv => decide (kv.1 ∈ (extendPipeline pl f).take f.tags.length)) &&
      coveredSubs (extendPipeline pl f) rest

theorem firesAt_false_of_missing {f : Filter} {e : Event} {pl₂ : List Tag} {k : Tag}
    (hconstr : f.get k ≠ none) (hek : e.get k = none)
    (hcover : ∀ kv ∈ f.tags, kv.1 ∈ pl₂.take f.tags.length) :
    firesAt e pl₂ f = false := by
  cases hg : f.get k with
  | none => exact absurd hg hconstr
  | some vs =>
    have hkmem : k ∈ pl₂.take f.tags.length := hcover (k, vs) (lookupKV_mem hg)
    cases hpath : pathOf f (pl₂.take f.tags.length) with
    | none => simp [firesAt, hpath]
    | some p =>
      rw [firesAt, hpath]
      show pathCompat e pl₂ p = false
      cases hc : pathCompat e pl₂ p with
      | false => rfl
      | true =>
        exfalso
        have h2 : pathCompat e (pl₂.take f.tags.length) p = true := by
          rw [← pathCompat_take e pl₂ f.tags.length p (by rw [pathOf_length hpath])]
          exact hc
        obtain ⟨v, _, hev⟩ := (pathCompat_pathOf hpath).mp h2 k hkmem vs hg
        rw [hek] at hev
        exact Option.noConfusion hev

theorem specTreeCnt_zero_missing {L : Type} [DecidableEq L] (x : L) (e : Event)
    (k : Tag) (hek : e.get k = none) :
    ∀ (subs : List (L × Filter)) (pl : List Tag), coveredSubs pl subs = true →
      (∀ g : Filter, (x, g) ∈ subs → g.get k ≠ none) →
      specTreeCnt x e pl subs = 0 := by
  intro subs
  induction subs with
  | nil => intro pl _ _; rfl
  | cons af rest ih =>
    intro pl hcov hall
    obtain ⟨a, f⟩ := af
    simp only [coveredSubs, Bool.and_eq_true, List.all_eq_true] at hcov
    obtain ⟨hcovf, hcovrest⟩ := hcov
    simp only [specTreeCnt]
    rw [ih (extendPipeline pl f) hcovrest fun g hg => hall g (by simp [hg])]
    by_cases hxa : x = a
    · subst hxa
      have hfire : firesAt e (extendPipeline pl f) f = false :=
        firesAt_false_of_missing (hall f (by simp)) hek
          fun kv hkv => by simpa using hcovf kv hkv
      simp [hfire]
    · simp [hxa]

theorem matches_false_of_missing {f : Filter} {e : Event} {k : Tag}
    (hconstr : f.get k ≠ none) (hek : e.get k = none) :
    f.matches e = false := by
  cases hg : f.get k with
  | none => exact absurd hg hconstr
  | some vs =>
    cases hm : f.matches e with
    | false => rfl
    | true =>
      exfalso
      have := List.all_eq_true.mp hm (k, vs) (lookupKV_mem hg)
      rw [hek] at this
      simp at this

theorem specLinCnt_zero_missing {L : Type} [DecidableEq L] (x : L) (e : Event)
    (k : Tag) (hek : e.get k = none) :
    ∀ subs : List (L × Filter),
      (∀ g : Filter, (x, g) ∈ subs → g.get k ≠ none) →
      specLinCnt x e subs = 0 := by
  intro subs
  induction subs with
  | nil => intro _; rfl
  | cons af rest ih =>
    intro hall
    obtain ⟨a, f⟩ := af
    simp only [specLinCnt]
    rw [ih fun g hg => hall g (by simp [hg])]
    by_cases hxa : x = a
    · subst hxa
      have := matches_false_of_missing (hall f (by simp)) hek
      simp [this]
    · simp [hxa]

theorem acceptList_eq_filter {L : Type} (e : Event) :
    ∀ lst : List (L × Filter),
      acceptList e lst = (lst.filter (fun af => af.2.matches e)).map Prod.fst := by
  intro lst
  induction lst with
  | nil => rfl
  | cons af rest ih =>
    obtain ⟨a, f⟩ := af
    cases hm : f.matches e with
    | true => simp [acceptList, hm, ih, List.filter_cons]
    | false => simp [acceptList, hm, ih, List.filter_cons]

/-- The match predicate in the spec's own words: for every tag named in the
filter, the event carries that tag with a value contained in the filter's
set for that tag. -/
def SpecMatch (f : Filter) (e : Event) : Prop :=
  ∀ kv ∈ f.tags, ∃ v, e.get kv.1 = some v ∧ v ∈ kv.2

theorem matches_iff_SpecMatch (f : Filter) (e : Event) :
    f.matches e = true ↔ SpecMatch f e := by
  rw [Filter.matches, List.all_eq_true]
  constructor
  · intro h kv hkv
    have := h kv hkv
    cases hev : e.get kv.1 with
    | none => rw [hev] at this; simp at this
    | some v => rw [hev] at this; exact ⟨v, rfl, by simpa using this⟩
  · intro h kv hkv
    obtain ⟨v, hev, hv⟩ := h kv hkv
    simp [hev, hv]

theorem filterEdge_none_iff {f : Filter} {k : Tag} :
    filterEdge f k = none ↔ ∃ vs, f.get k = some vs ∧ vs.length ≠ 1 := by
  cases hg : f.get k with
  | none => simp [filterEdge, hg]
  | some vs =>
    match vs with
    | [] => simp [filterEdge, hg]
    | [v] => simp [filterEdge, hg]
    | v :: w :: r => simp [filterEdge, hg]

theorem pathOf_none_iff {f : Filter} : ∀ {keys : List Tag},
    pathOf f keys = none ↔ ∃ k ∈ keys, ∃ vs, f.get k = some vs ∧ vs.length ≠ 1 := by
  intro keys
  induction keys with
  | nil => simp [pathOf]
  | cons k ks ih =>
    have hsplit : pathOf f (k :: ks) = none ↔
        filterEdge f k = none ∨ pathOf f ks = none := by
      simp only [pathOf]
      cases filterEdge f k <;> cases pathOf f ks <;> simp
    rw [hsplit, filterEdge_none_iff, ih]
    constructor
    · rintro (⟨vs, hvs⟩ | ⟨k₂, hk₂, hvs⟩)
      · exact ⟨k, by simp, vs, hvs⟩
      · exact ⟨k₂, by simp [hk₂], hvs⟩
    · rintro ⟨k₂, hk₂, vs, hvs⟩
      rcases List.mem_cons.mp hk₂ with rfl | hk₂
      · exact Or.inl ⟨vs, hvs⟩
      · exact Or.inr ⟨k₂, hk₂, vs, hvs⟩

theorem extendPipeline_nodup {pl : List Tag} {f : Filter}
    (hpl : pl.Nodup) (hf : (f.tags.map Prod.fst).Nodup) :
    (extendPipeline pl f).Nodup := by
  rw [extendPipeline]
  refine List.Nodup.append hpl (hf.filter _) ?_
  intro k hk₁ hk₂
  rw [List.mem_filter] at hk₂
  have h2 : k ∉ pl := by simpa using hk₂.2
  exact h2 hk₁

/-! ### State-passing view of `accept`

In the source, `accept(&mut self, evt)` takes the engine by mutable
reference, but the only mutation it performs is `listener.accept(evt)` on
stored listeners; here that is made explicit: `recv` is the listener's own
receive operation, and the state-passing `acceptUpd` returns the engine with
exactly the invoked listeners' values stepped by `recv`.  (It visits the
same nodes as the frontier walk — the one reached child per key plus the
passthrough chain — depth-first rather than breadth-first; each stored
listener is stepped at most once per call, so the resulting state is the
same.)  The frame claims are then provable facts about it: the pipeline,
the subscription list's filters, and the whole trie shape are returned
untouched. -/

def LinearScan.acceptUpd {L : Type} (recv : L → Event → L) (s : LinearScan L)
    (e : Event) : LinearScan L :=
  ⟨s.listeners.map fun af => (if af.2.matches e then recv af.1 e else af.1, af.2)⟩

def acceptUpdTree {L : Type} (recv : L → Event → L) (e : Event) :
    TagTree L → List Tag → TagTree L
  | t, [] => .mk (t.interested.map (fun a => recv a e)) t.passthrough t.children
  | t, key :: rest =>
      .mk (t.interested.map (fun a => recv a e))
        (t.passthrough.map (fun pt => acceptUpdTree recv e pt rest))
        (t.children.map (fun vc =>
          (vc.1,
            match e.get key with
            | some v => if vc.1 = v then acceptUpdTree recv e vc.2 rest else vc.2
            | none => vc.2)))

def TreeScanner.acceptUpd {L : Type} (recv : L → Event → L) (s : TreeScanner L)
    (e : Event) : TreeScanner L :=
  ⟨s.pipeline, acceptUpdTree recv e s.root s.pipeline⟩

/-- Everything about a node except the listener values: how many listeners
it holds, whether it has a passthrough child, and its children's keys. -/
def nodeShape {L : Type} (t : TagTree L) : Nat × Bool × List Value :=
  (t.interested.length, t.passthrough.isSome, t.children.map Prod.fst)

theorem lookupKV_map {α β : Type} (g : String → α → β) (w : String) :
    ∀ cs : List (String × α),
      lookupKV w (cs.map (fun vc => (vc.1, g vc.1 vc.2))) =
        (lookupKV w cs).map (g w) := by
  intro cs
  induction cs with
  | nil => rfl
  | cons xu rest ih =>
    obtain ⟨y, u⟩ := xu
    by_cases hy : y = w
    · subst hy; simp [lookupKV]
    · simp [lookupKV, hy, ih]

theorem acceptUpdTree_shape {L : Type} (recv : L → Event → L) (e : Event) :
    ∀ (keys : List Tag) (t : TagTree L) (p : List Edge),
      (lookupPath (acceptUpdTree recv e t keys) p).map nodeShape =
        (lookupPath t p).map nodeShape := by
  intro keys
  induction keys with
  | nil =>
    intro t p
    cases p with
    | nil =>
      show some (nodeShape (acceptUpdTree recv e t [])) = some (nodeShape t)
      refine congrArg some ?_
      obtain ⟨i, pt, cs⟩ := t
      show ((i.map fun a => recv a e).length, pt.isSome, cs.map Prod.fst)
        = (i.length, pt.isSome, cs.map Prod.fst)
      simp
    | cons ed q =>
      have hsub : (acceptUpdTree recv e t []).sub ed = t.sub ed := by
        cases ed <;> rfl
      simp only [lookupPath, hsub]
  | cons key rest ih =>
    intro t p
    cases p with
    | nil =>
      show some (nodeShape (acceptUpdTree recv e t (key :: rest))) = some (nodeShape t)
      refine congrArg some ?_
      obtain ⟨i, pt, cs⟩ := t
      simp only [acceptUpdTree, nodeShape, TagTree.interested, TagTree.passthrough,
        TagTree.children, List.length_map]
      rw [show (Option.map (fun p₂ => acceptUpdTree recv e p₂ rest) pt).isSome = pt.isSome
        from by cases pt <;> rfl]
      have h3 : ∀ cs₂ : List (Value × TagTree L),
          List.map Prod.fst (List.map (fun vc => (vc.1,
            match e.get key with
            | some v => if vc.1 = v then acceptUpdTree recv e vc.2 rest else vc.2
            | none => vc.2)) cs₂) = List.map Prod.fst cs₂ := by
        intro cs₂
        induction cs₂ with
        | nil => rfl
        | cons vc rest₂ ih₂ => simp [ih₂]
      rw [h3 cs]
    | cons ed q =>
      show (match (acceptUpdTree recv e t (key :: rest)).sub ed with
        | some t₂ => lookupPath t₂ q
        | none => none).map nodeShape =
        (match t.sub ed with
        | some t₂ => lookupPath t₂ q
        | none => none).map nodeShape
      cases ed with
      | pass =>
        rw [show (acceptUpdTree recv e t (key :: rest)).sub Edge.pass =
          t.passthrough.map (fun pt => acceptUpdTree recv e pt rest) from rfl]
        cases hp : t.passthrough with
        | none =>
          rw [show t.sub Edge.pass = (none : Option (TagTree L)) from hp]
          rfl
        | some pt =>
          rw [show t.sub Edge.pass = some pt from hp]
          show (lookupPath (acceptUpdTree recv e pt rest) q).map nodeShape =
            (lookupPath pt q).map nodeShape
          exact ih pt q
      | val w =>
        rw [show (acceptUpdTree recv e t (key :: rest)).sub (Edge.val w) =
            lookupKV w (t.children.map (fun vc => (vc.1,
              match e.get key with
              | some v => if vc.1 = v then acceptUpdTree recv e vc.2 rest else vc.2
              | none => vc.2))) from rfl]
        have hkv : ∀ cs₂ : List (Value × TagTree L),
            lookupKV w (cs₂.map (fun vc => (vc.1,
              match e.get key with
              | some v => if vc.1 = v then acceptUpdTree recv e vc.2 rest else vc.2
              | none => vc.2))) =
            (lookupKV w cs₂).map (fun c =>
              match e.get key with
              | some v => if w = v then acceptUpdTree recv e c rest else c
              | none => c) := by
          intro cs₂
          induction cs₂ with
          | nil => rfl
          | cons xu rest₂ ih₂ =>
            obtain ⟨y, u⟩ := xu
            by_cases hy : y = w
            · subst hy; simp [lookupKV]
            · simp [lookupKV, hy, ih₂]
        rw [hkv t.children]
        cases hc : lookupKV w t.children with
        | none =>
          rw [show t.sub (Edge.val w) = (none : Option (TagTree L)) from hc]
          rfl
        | some c =>
          rw [show t.sub (Edge.val w) = some c from hc]
          show (lookupPath (match e.get key with
            | some v => if w = v then acceptUpdTree recv e c rest else c
            | none => c) q).map nodeShape = (lookupPath c q).map nodeShape
          cases hv : e.get key with
          | none => rfl
          | some v =>
            show (lookupPath (if w = v then acceptUpdTree recv e c rest else c) q).map
              nodeShape = (lookupPath c q).map nodeShape
            by_cases hw : w = v
            · rw [if_pos hw]
              exact ih c q
            · rw [if_neg hw]

/-! ### The claims -/

/-- C1: For every sequence of subscribe calls whose filters constrain each
tag to exactly one value and keep each filter's constrained tags within the
first N pipeline positions (N = that filter's tag count), and for every
event: the set of listeners invoked by LinearScan's accept equals the set
invoked by TreeScanner's accept when both received the same subscriptions in
the same order. -/
theorem c1_match_equivalence {L : Type} [DecidableEq L] (subs : List (L × Filter))
    (e : Event) (s : TreeScanner L)
    (hgood : goodSubs [] subs = true)
    (hbuild : buildTree L subs = some s) (x : L) :
    x ∈ s.accept e ↔ x ∈ (buildLinear L subs).accept e := by
  rw [← cnt_pos, ← cnt_pos, buildTree_cnt hbuild x e, buildLinear_cnt subs x e,
    spec_cnt_eq x e subs [] hgood]

def w1subs : List (Nat × Filter) :=
  [(1, ⟨[("a", ["x"])]⟩), (2, ⟨[("a", ["x"]), ("b", ["y"])]⟩)]

def w1evt : Event := ⟨[("a", "x"), ("b", "y")]⟩

def w1scan : TreeScanner Nat := (buildTree Nat w1subs).get (by decide)

theorem c1_match_equivalence_witness :
    ((1 : Nat) ∈ w1scan.accept w1evt ↔ 1 ∈ (buildLinear Nat w1subs).accept w1evt) ∧
    goodSubs [] w1subs = true ∧ (1 : Nat) ∈ w1scan.accept w1evt :=
  ⟨c1_match_equivalence w1subs w1evt w1scan (by decide)
    (Option.some_get (by decide)).symm 1, by decide, by decide⟩

/-- C2: LinearScan's accept invokes a stored listener iff, for every tag
named in its filter, the event carries that tag with a value contained in
the filter's set for that tag (tags absent from the filter are
unconstrained, and an empty filter matches every event), and it invokes
matching listeners in subscription order, each exactly once: the log equals
the matching sublist of the stored pairs, in order. -/
theorem c2_linear_scan_accept {L : Type} (s : LinearScan L) (e : Event) :
    s.accept e = (s.listeners.filter (fun af => af.2.matches e)).map Prod.fst ∧
    (∀ f : Filter, f.matches e = true ↔ SpecMatch f e) ∧
    (Filter.mk []).matches e = true :=
  ⟨acceptList_eq_filter e s.listeners, fun f => matches_iff_SpecMatch f e, rfl⟩

/-- C5: a listener subscribed with an empty filter is invoked by every
accept call, of both strategies, for every event, regardless of what else
has been subscribed. -/
theorem c5_empty_filter_always {L : Type} [DecidableEq L]
    (subs : List (L × Filter)) (x : L) (e : Event) (s : TreeScanner L)
    (hmem : (x, Filter.mk []) ∈ subs)
    (hbuild : buildTree L subs = some s) :
    x ∈ s.accept e ∧ x ∈ (buildLinear L subs).accept e := by
  constructor
  · rw [← cnt_pos, buildTree_cnt hbuild x e]
    exact specTreeCnt_empty_filter x e subs [] hmem
  · rw [← cnt_pos, buildLinear_cnt subs x e]
    exact specLinCnt_pos_of_matching (matches_empty_filter e) subs hmem

def w5subs : List (Nat × Filter) := [(1, ⟨[]⟩), (2, ⟨[("hello", ["world"])]⟩)]

def w5scan : TreeScanner Nat := (buildTree Nat w5subs).get (by decide)

theorem c5_empty_filter_always_witness :
    (1 : Nat) ∈ w5scan.accept (Event.mk [("other", "tag")]) ∧
    1 ∈ (buildLinear Nat w5subs).accept (Event.mk [("other", "tag")]) :=
  c5_empty_filter_always w5subs 1 (Event.mk [("other", "tag")]) w5scan (by decide)
    (Option.some_get (by decide)).symm

/-- C6: the pipeline is an append-only sequence of distinct tag names: a
successful subscribe leaves every existing entry at its position and appends
exactly the filter's tag names not already present, never introducing a
duplicate. -/
theorem c6_pipeline_append_only {L : Type} (s s₂ : TreeScanner L) (a : L)
    (f : Filter) (hsub : s.subscribe a f = some s₂)
    (hpl : s.pipeline.Nodup) (hf : (f.tags.map Prod.fst).Nodup) :
    s₂.pipeline = s.pipeline ++
      (f.tags.map Prod.fst).filter (fun k => decide (k ∉ s.pipeline)) ∧
    s₂.pipeline.Nodup := by
  obtain ⟨p, hpath, rfl⟩ := subscribe_some hsub
  exact ⟨rfl, extendPipeline_nodup hpl hf⟩

def w6scan : TreeScanner Nat :=
  ((TreeScanner.empty Nat).subscribe 1 (Filter.mk [("a", ["x"])])).get (by decide)

theorem c6_pipeline_append_only_witness :
    w6scan.pipeline = (TreeScanner.empty Nat).pipeline ++
      ((Filter.mk [("a", ["x"])]).tags.map Prod.fst).filter
        (fun k => decide (k ∉ (TreeScanner.empty Nat).pipeline)) ∧
    w6scan.pipeline.Nodup :=
  c6_pipeline_append_only (TreeScanner.empty Nat) w6scan 1 (Filter.mk [("a", ["x"])])
    (Option.some_get (by decide)).symm (by decide) (by decide)

/-- C9: for every TreeScanner state and every filter whose constrained tags
each map to exactly one acceptable value, subscribe completes normally (the
fatal branch is unreachable) and appends the listener to exactly one node's
interested list, leaving every other node's list unchanged. -/
theorem c9_single_value_subscribe {L : Type} (s : TreeScanner L) (a : L)
    (f : Filter) (hsingle : ∀ kv ∈ f.tags, ∃ v, kv.2 = [v]) :
    ∃ s₂, s.subscribe a f = some s₂ ∧
      ∃ p, ∀ q, interestedAt s₂.root q =
        if q = p then interestedAt s.root q ++ [a] else interestedAt s.root q := by
  obtain ⟨p, hpath⟩ :=
    pathOf_total hsingle ((extendPipeline s.pipeline f).take f.tags.length)
  refine ⟨⟨extendPipeline s.pipeline f, insertAtPath a s.root p⟩, ?_, p, ?_⟩
  · rw [subscribe_eq, hpath]
  · intro q
    show interestedAt (insertAtPath a s.root p) q = _
    rw [interestedAt_insertAtPath]

theorem c9_single_value_subscribe_witness :
    ∃ s₂, (TreeScanner.empty Nat).subscribe 1 (Filter.mk [("a", ["x"])]) = some s₂ ∧
      ∃ p, ∀ q, interestedAt s₂.root q =
        if q = p then interestedAt (TreeScanner.empty Nat).root q ++ [1]
        else interestedAt (TreeScanner.empty Nat).root q :=
  c9_single_value_subscribe (TreeScanner.empty Nat) 1 (Filter.mk [("a", ["x"])])
    (by
      intro kv hkv
      rcases List.mem_singleton.mp hkv with rfl
      exact ⟨"x", rfl⟩)

def c3subs : List (Nat × Filter) := [(1, ⟨[("b", ["y"])]⟩), (2, ⟨[("z", ["v", "w"])]⟩)]

/-- C3 counterexample: subscribing a filter that constrains tag z to the
two-element value set (v, w) does not fail when the scanner's pipeline
already holds another tag — the one-step walk passes through key b and
never examines z, so the subscription is stored silently. -/
theorem c3_counterexample :
    (buildTree Nat c3subs).isSome = true ∧
    Filter.get ⟨[("z", ["v", "w"])]⟩ "z" = some ["v", "w"] ∧
    ("v" : String) ≠ "w" := by
  decide

/-- C3 amended: a subscribe call fails fatally exactly when some key among
the first N positions of the extended pipeline (N = the filter's tag count)
is constrained to a set of size other than one; in particular, on a fresh
scanner, a filter with one tag mapped to two acceptable values aborts
fatally. -/
theorem c3_amended_fatal {L : Type} (s : TreeScanner L) (a : L) (f : Filter)
    (k v w : String) (hvw : v ≠ w) :
    (s.subscribe a f = none ↔
      ∃ key ∈ (extendPipeline s.pipeline f).take f.tags.length,
        ∃ vs, f.get key = some vs ∧ vs.length ≠ 1) ∧
    (TreeScanner.empty L).subscribe a ⟨[(k, [v, w])]⟩ = none := by
  constructor
  · constructor
    · intro h
      exact pathOf_none_iff.mp (subscribe_none h)
    · intro h
      cases hsub : s.subscribe a f with
      | none => rfl
      | some s₁ =>
        obtain ⟨p, hpath, _⟩ := subscribe_some hsub
        rw [pathOf_none_iff.mpr h] at hpath
        exact Option.noConfusion hpath
  · cases hsub : (TreeScanner.empty L).subscribe a ⟨[(k, [v, w])]⟩ with
    | none => rfl
    | some s₁ =>
      exfalso
      obtain ⟨p, hpath, _⟩ := subscribe_some hsub
      have hnone : pathOf (⟨[(k, [v, w])]⟩ : Filter)
          ((extendPipeline (TreeScanner.empty L).pipeline ⟨[(k, [v, w])]⟩).take
            (⟨[(k, [v, w])]⟩ : Filter).tags.length) = none := by
        apply pathOf_none_iff.mpr
        refine ⟨k, ?_, [v, w], ?_, by simp⟩
        · show k ∈ (extendPipeline [] ⟨[(k, [v, w])]⟩).take 1
          simp [extendPipeline]
        · show lookupKV k [(k, [v, w])] = some [v, w]
          simp [lookupKV]
      rw [hnone] at hpath
      exact Option.noConfusion hpath

theorem c3_amended_fatal_witness :
    ((TreeScanner.empty Nat).subscribe 1 (Filter.mk [("b", ["y"])]) = none ↔
      ∃ key ∈ (extendPipeline (TreeScanner.empty Nat).pipeline
          (Filter.mk [("b", ["y"])])).take (Filter.mk [("b", ["y"])]).tags.length,
        ∃ vs, (Filter.mk [("b", ["y"])]).get key = some vs ∧ vs.length ≠ 1) ∧
    (TreeScanner.empty Nat).subscribe 1 (⟨[("x", ["v", "w"])]⟩ : Filter) = none :=
  c3_amended_fatal (TreeScanner.empty Nat) 1 (Filter.mk [("b", ["y"])]) "x" "v" "w"
    (by decide)

def c4subs : List (Nat × Filter) := [(1, ⟨[("a", ["x"])]⟩), (2, ⟨[("b", ["y"])]⟩)]

def c4scan : TreeScanner Nat := (buildTree Nat c4subs).get (by decide)

/-- C4 counterexample: listener 2 subscribed to the TreeScanner with a
filter constraining tag b, yet the empty event — which does not carry b —
still reaches it: its subscribing walk spent its single step on pipeline
key a and stored it behind a passthrough edge, so its b constraint was
never recorded. -/
theorem c4_counterexample :
    Filter.get ⟨[("b", ["y"])]⟩ "b" ≠ none ∧
    Event.get ⟨[]⟩ "b" = none ∧
    2 ∈ c4scan.accept ⟨[]⟩ := by
  decide

/-- C4 amended: a listener every subscription of which constrains tag k is
not invoked on an event that does not carry k — by LinearScan
unconditionally, and by TreeScanner provided each filter's constrained tags
lie within the first N pipeline positions at its subscribe time. -/
theorem c4_amended_missing_tag {L : Type} [DecidableEq L]
    (subs : List (L × Filter)) (x : L) (k : Tag) (e : Event)
    (hconstr : ∀ g : Filter, (x, g) ∈ subs → g.get k ≠ none)
    (hek : e.get k = none) :
    x ∉ (buildLinear L subs).accept e ∧
    ∀ s : TreeScanner L, coveredSubs [] subs = true →
      buildTree L subs = some s → x ∉ s.accept e := by
  constructor
  · intro hmem
    have h1 : 0 < cnt x ((buildLinear L subs).accept e) := cnt_pos.mpr hmem
    rw [buildLinear_cnt subs x e, specLinCnt_zero_missing x e k hek subs hconstr] at h1
    omega
  · intro s hcov hbuild hmem
    have h1 : 0 < cnt x (s.accept e) := cnt_pos.mpr hmem
    rw [buildTree_cnt hbuild x e,
      specTreeCnt_zero_missing x e k hek subs [] hcov hconstr] at h1
    omega

def w4subs : List (Nat × Filter) := [(1, ⟨[("b", ["y"])]⟩)]

def w4scan : TreeScanner Nat := (buildTree Nat w4subs).get (by decide)

def w4subsM : List (Nat × Filter) := [(1, ⟨[("b", ["v", "w"])]⟩)]

theorem c4_amended_missing_tag_witness :
    ((1 : Nat) ∉ (buildLinear Nat w4subs).accept (Event.mk []) ∧
      (1 : Nat) ∉ w4scan.accept (Event.mk [])) ∧
    ((1 : Nat) ∉ (buildLinear Nat w4subsM).accept (Event.mk [])) ∧
    (buildTree Nat w4subsM).isSome = false :=
  ⟨⟨(c4_amended_missing_tag w4subs 1 "b" (Event.mk [])
      (by
        intro g hg
        have h2 : (1, g) = ((1 : Nat), Filter.mk [("b", ["y"])]) :=
          List.mem_singleton.mp hg
        obtain ⟨-, h₃⟩ := Prod.mk.injEq .. ▸ h2
        subst h₃
        decide)
      (by decide)).1,
    (c4_amended_missing_tag w4subs 1 "b" (Event.mk [])
      (by
        intro g hg
        have h2 : (1, g) = ((1 : Nat), Filter.mk [("b", ["y"])]) :=
          List.mem_singleton.mp hg
        obtain ⟨-, h₃⟩ := Prod.mk.injEq .. ▸ h2
        subst h₃
        decide)
      (by decide)).2 w4scan (by decide) (Option.some_get (by decide)).symm⟩,
   (c4_amended_missing_tag w4subsM 1 "b" (Event.mk [])
      (by
        intro g hg
        have h2 : (1, g) = ((1 : Nat), Filter.mk [("b", ["v", "w"])]) :=
          List.mem_singleton.mp hg
        obtain ⟨-, h₃⟩ := Prod.mk.injEq .. ▸ h2
        subst h₃
        decide)
      (by decide)).1,
   by decide⟩

/-- C7: a single accept call of a TreeScanner built from subscriptions with
pairwise-distinct listeners invokes each stored listener at most once, and
the invocation log is grouped by non-decreasing node depth: it is a
concatenation of groups whose i-th group contains only listeners subscribed
with a filter of exactly i tags (the root's group first, then deeper
nodes). -/
theorem c7_at_most_once_by_depth {L : Type} [DecidableEq L]
    (subs : List (L × Filter)) (e : Event) (s : TreeScanner L)
    (hids : (subs.map Prod.fst).Nodup)
    (hkeys : ∀ af ∈ subs, ((af : L × Filter).2.tags.map Prod.fst).Nodup)
    (hbuild : buildTree L subs = some s) :
    (s.accept e).Nodup ∧
    ∃ groups : List (List L), s.accept e = joinL groups ∧
      ∀ (i : Nat) (x : L), x ∈ groups.getD i [] →
        ∃ f, (x, f) ∈ subs ∧ f.tags.length = i := by
  constructor
  · apply nodup_of_cnt_le_one
    intro x
    rw [buildTree_cnt hbuild x e]
    exact le_trans (specTreeCnt_le_ids x e subs []) (cnt_le_one_of_nodup hids x)
  · refine ⟨walkGroups e [s.root] s.pipeline,
      acceptWalk_eq_joinL e s.pipeline [s.root], ?_⟩
    intro i x hx
    obtain ⟨t, ht, p, hlen, _, hmem⟩ := walkGroups_mem e s.pipeline [s.root] i x hx
    obtain rfl : t = s.root := by simpa using ht
    have hpos : 0 < cnt x (interestedAt s.root p) := cnt_pos.mpr hmem
    rw [buildFrom_cnt subs (TreeScanner.empty L) s hbuild x p] at hpos
    have h0 : cnt x (interestedAt (TreeScanner.empty L).root p) = 0 := by
      simp [TreeScanner.empty, interestedAt_new, cnt]
    rw [h0] at hpos
    obtain ⟨af, hmem₂, hfst, pl₁, hpath⟩ := pathAdds_pos_mem x p subs
      (TreeScanner.empty L).pipeline (by omega)
    have hdepth : af.2.tags.length = i := by
      have h2 := pathOf_length hpath
      rw [List.length_take] at h2
      have h3 := @length_le_extendPipeline pl₁ af.2 (hkeys af hmem₂)
      omega
    have hxaf : (x, af.2) = af := by
      obtain ⟨a₁, f₁⟩ := af
      simp only at hfst
      rw [hfst]
    exact ⟨af.2, hxaf ▸ hmem₂, hdepth⟩

def w7subs : List (Nat × Filter) := [(1, ⟨[]⟩), (2, ⟨[("hello", ["world"])]⟩)]

def w7scan : TreeScanner Nat := (buildTree Nat w7subs).get (by decide)

theorem c7_at_most_once_by_depth_witness :
    (w7scan.accept (Event.mk [("hello", "world")])).Nodup ∧
    ∃ groups : List (List Nat),
      w7scan.accept (Event.mk [("hello", "world")]) = joinL groups ∧
      ∀ (i : Nat) (x : Nat), x ∈ groups.getD i [] →
        ∃ f, (x, f) ∈ w7subs ∧ f.tags.length = i :=
  c7_at_most_once_by_depth w7subs (Event.mk [("hello", "world")]) w7scan
    (by decide)
    (by decide)
    (Option.some_get (by decide)).symm

/-- C8: accept leaves the engine's own state unchanged.  With
listener-internal state made explicit through the receive operation `recv`,
the linear strategy's returned state keeps the same (listener, filter)
entries — same filters, same order, one entry per stored listener — and the
tree strategy's returned state keeps the pipeline and the whole trie shape
(every node's interested-list length, passthrough presence, and children
edges); neither the event nor the stored filters are mutated. -/
theorem c8_accept_frame {L : Type} (recv : L → Event → L) (lin : LinearScan L)
    (s : TreeScanner L) (e : Event) :
    (lin.acceptUpd recv e).listeners.map Prod.snd = lin.listeners.map Prod.snd ∧
    (s.acceptUpd recv e).pipeline = s.pipeline ∧
    ∀ p : List Edge,
      (lookupPath (s.acceptUpd recv e).root p).map nodeShape =
        (lookupPath s.root p).map nodeShape := by
  refine ⟨?_, rfl, ?_⟩
  · have h2 : ∀ lst : List (L × Filter),
        (lst.map (fun af =>
          (if af.2.matches e then recv af.1 e else af.1, af.2))).map Prod.snd =
          lst.map Prod.snd := by
      intro lst
      induction lst with
      | nil => rfl
      | cons af rest ih => simp [ih]
    exact h2 lin.listeners
  · intro p
    exact acceptUpdTree_shape recv e s.pipeline s.root p

/-- C10: later subscriptions never change the delivery behaviour of earlier
ones: for a scanner s built by some subscriptions, a listener x stored in it
and not re-registered afterwards, and further normally-completing
subscriptions yielding s₂, accept invokes x on an event after exactly when
it did before. -/
theorem c10_later_subs_no_interference {L : Type} [DecidableEq L]
    (pre post : List (L × Filter)) (x : L) (e : Event) (s s₂ : TreeScanner L)
    (hpre : buildTree L pre = some s)
    (hpost : buildFrom s post = some s₂)
    (hx : x ∈ pre.map Prod.fst)
    (hnot : ∀ af ∈ post, (af : L × Filter).1 ≠ x) :
    (x ∈ s.accept e ↔ x ∈ s₂.accept e) := by
  have hkey : cnt x (s₂.accept e) = cnt x (s.accept e) := by
    rw [cnt_accept, cnt_accept]
    have hpl₂ : s₂.pipeline = pipeAfter s.pipeline post :=
      buildFrom_pipeline post s s₂ hpost
    obtain ⟨ext, hext⟩ := pipeAfter_extends post s.pipeline
    have hstep : ∀ p, cnt x (interestedAt s₂.root p) =
        cnt x (interestedAt s.root p) := by
      intro p
      rw [buildFrom_cnt post s s₂ hpost x p]
      have hzero : ∀ (subs₂ : List (L × Filter)) (pl : List Tag),
          (∀ af ∈ subs₂, (af : L × Filter).1 ≠ x) → pathAdds x p pl subs₂ = 0 := by
        intro subs₂
        induction subs₂ with
        | nil => intro pl _; rfl
        | cons af rest ih =>
          intro pl hall
          obtain ⟨a, f⟩ := af
          simp only [pathAdds]
          rw [ih _ fun af₂ h₂ => hall af₂ (by simp [h₂])]
          have hxa : ¬(x = a) := fun hh => hall (a, f) (by simp) hh.symm
          simp [hxa]
      rw [hzero post s.pipeline hnot]
      omega
    rw [sumf_congr (fun p _ => hstep p), hpl₂, hext]
    exact sumf_cnt_extend x e s.pipeline s.root s.pipeline.length ext
      (buildTree_bounded hpre) (Nat.le_refl _)
  rw [← cnt_pos, ← cnt_pos, hkey]

def w10pre : List (Nat × Filter) := [(1, ⟨[("a", ["x"])]⟩)]

def w10post : List (Nat × Filter) := [(2, ⟨[("b", ["y"])]⟩)]

def w10s : TreeScanner Nat := (buildTree Nat w10pre).get (by decide)

def w10s₂ : TreeScanner Nat := (buildFrom w10s w10post).get (by decide)

theorem c10_later_subs_no_interference_witness :
    ((1 : Nat) ∈ w10s.accept (Event.mk [("a", "x")]) ↔
      1 ∈ w10s₂.accept (Event.mk [("a", "x")])) ∧
    (1 : Nat) ∈ w10s.accept (Event.mk [("a", "x")]) :=
  ⟨c10_later_subs_no_interference w10pre w10post 1 (Event.mk [("a", "x")]) w10s w10s₂
    (Option.some_get (by decide)).symm (Option.some_get (by decide)).symm
    (by decide) (by decide), by decide⟩

end Tagsub
